import Mathlib

/-!
Verification of the Join Subset Enumerator (src/python): a shallow
embedding of the join graph, transitive closure, equivalence classes,
level-ordered DP enumerator, predicate classifier, constant-equality
fact extraction, and SQL subquery renderer, with theorems settling the
frozen claims about the system.

Conventions of the embedding:
* Python dicts preserve insertion order, so they are modelled as
  insertion-ordered association lists.
* Python sets are modelled as lists where only membership and
  cardinality after dedup matter; where Python iterates over a set and
  the iteration order can influence the result, the order is made an
  explicit parameter (see the order oracle of the renderer).
* Qualified columns ("t.c" strings in the source) are modelled as
  structured pairs; the source recovers the relation of a qualified
  column with a string prefix test, which coincides with the pair
  projection for dot-free aliases.
* The canonical key "|||".join(sorted(subset)) is modelled as the
  sorted alias list itself (the delimiter makes the string encoding
  injective, so the two representations are interchangeable).
-/

namespace JSE

/-- Lexicographic code-point comparison on character lists (Python string
comparison), written so that it evaluates by kernel reduction. -/
def charListLE : List Char → List Char → Bool
  | [], _ => true
  | _ :: _, [] => false
  | c :: cs, d :: ds => if c = d then charListLE cs ds else decide (c < d)

/-- Python `t1 <= t2` on strings. -/
def strLE (a b : String) : Bool := charListLE a.data b.data

/-- The order relation used by `sorted` throughout. -/
def strLERel (a b : String) : Prop := strLE a b = true

instance : DecidableRel strLERel := fun a b => by unfold strLERel; infer_instance

theorem charListLE_total (l1 l2 : List Char) :
    charListLE l1 l2 = true ∨ charListLE l2 l1 = true := by
  induction l1 generalizing l2 with
  | nil => exact Or.inl rfl
  | cons c cs ih =>
    cases l2 with
    | nil => exact Or.inr rfl
    | cons d ds =>
      by_cases hcd : c = d
      · subst hcd
        simpa [charListLE] using ih ds
      · rcases lt_or_gt_of_ne hcd with h | h
        · exact Or.inl (by simp [charListLE, hcd, h])
        · exact Or.inr (by simp [charListLE, Ne.symm hcd, h])

theorem charListLE_trans {l1 l2 l3 : List Char} (h12 : charListLE l1 l2 = true)
    (h23 : charListLE l2 l3 = true) : charListLE l1 l3 = true := by
  induction l1 generalizing l2 l3 with
  | nil => rfl
  | cons c cs ih =>
    cases l2 with
    | nil => simp [charListLE] at h12
    | cons d ds =>
      cases l3 with
      | nil => simp [charListLE] at h23
      | cons e es =>
        by_cases hcd : c = d <;> by_cases hde : d = e
        · subst hcd; subst hde
          simp only [charListLE, if_pos rfl] at h12 h23 ⊢
          exact ih h12 h23
        · subst hcd
          simp only [charListLE, if_pos rfl, if_neg hde] at h23 ⊢
          simp [hde, h23]
        · subst hde
          simp only [charListLE, if_pos rfl, if_neg hcd] at h12 ⊢
          simp [hcd, h12]
        · simp only [charListLE, if_neg hcd, if_neg hde, decide_eq_true_eq] at h12 h23
          have hce : c < e := lt_trans h12 h23
          simp [charListLE, ne_of_lt hce, hce]

theorem charListLE_antisymm {l1 l2 : List Char} (h12 : charListLE l1 l2 = true)
    (h21 : charListLE l2 l1 = true) : l1 = l2 := by
  induction l1 generalizing l2 with
  | nil =>
    cases l2 with
    | nil => rfl
    | cons d ds => simp [charListLE] at h21
  | cons c cs ih =>
    cases l2 with
    | nil => simp [charListLE] at h12
    | cons d ds =>
      by_cases hcd : c = d
      · subst hcd
        simp only [charListLE, if_pos rfl] at h12 h21
        rw [ih h12 h21]
      · simp only [charListLE, if_neg hcd, if_neg (Ne.symm hcd),
          decide_eq_true_eq] at h12 h21
        exact absurd h21 (not_lt_of_gt h12)

instance : IsTotal String strLERel :=
  ⟨fun a b => charListLE_total a.data b.data⟩

instance : IsTrans String strLERel :=
  ⟨fun _ _ _ h1 h2 => charListLE_trans h1 h2⟩

instance : IsAntisymm String strLERel :=
  ⟨fun a b h1 h2 => String.ext (charListLE_antisymm h1 h2)⟩

theorem strLERel_refl (a : String) : strLERel a a := by
  rcases charListLE_total a.data a.data with h | h <;> exact h

/-- A qualified column: relation alias plus column name. -/
structure QCol where
  rel : String
  col : String
deriving DecidableEq, Repr

/-- Join detail record (constants.JoinDetail). -/
structure JoinDetail where
  t1 : String
  t1_col : String
  t2 : String
  t2_col : String
  is_original : Bool
deriving DecidableEq, Repr

/-- Transitive join candidate (constants.TransitiveJoin). -/
structure TransitiveJoin where
  t1 : String
  t1_col : String
  t2 : String
  t2_col : String
deriving DecidableEq, Repr

/-- Canonical edge key for an unordered pair of aliases:
Python `'|||'.join(sorted([t1, t2]))`. -/
def edgeKey (t1 t2 : String) : String :=
  if strLE t1 t2 then t1 ++ "|||" ++ t2 else t2 ++ "|||" ++ t1

/-- The join graph's `join_details`: an insertion-ordered association list
from edge key to the list of join details on that edge. -/
abbrev Graph := List (String × List JoinDetail)

/-- Dict lookup on the association list. -/
def lookupEdge (g : Graph) (k : String) : Option (List JoinDetail) :=
  match g with
  | [] => none
  | (k0, ds) :: rest => if k0 = k then some ds else lookupEdge rest k

/-- Append a detail to the list stored at key `k`, creating the entry at the
end when missing (Python dict insertion semantics). -/
def appendAtKey (g : Graph) (k : String) (d : JoinDetail) : Graph :=
  match g with
  | [] => [(k, [d])]
  | (k0, ds) :: rest =>
    if k0 = k then (k0, ds ++ [d]) :: rest else (k0, ds) :: appendAtKey rest k d

/-- JoinGraph.add_join: canonicalize to sorted table order and append the
detail.  The column detail is only recorded when both columns are
non-empty, mirroring `if t1_col and t2_col`. -/
def addJoin (g : Graph) (t1 t2 t1c t2c : String) (orig : Bool) : Graph :=
  if t1c ≠ "" ∧ t2c ≠ "" then
    let tbl1 := if strLE t1 t2 then t1 else t2
    let tbl2 := if strLE t1 t2 then t2 else t1
    let d : JoinDetail :=
      { t1 := tbl1, t1_col := if tbl1 = t1 then t1c else t2c,
        t2 := tbl2, t2_col := if tbl2 = t2 then t2c else t1c,
        is_original := orig }
    appendAtKey g (edgeKey t1 t2) d
  else g

/-- JoinGraph._try_form_transitive_join: the four matching-end cases, in
source order. -/
def tryFormTransitiveJoin (d1 d2 : JoinDetail) : Option TransitiveJoin :=
  if d1.t2 = d2.t1 ∧ d1.t2_col = d2.t1_col then
    some ⟨d1.t1, d1.t1_col, d2.t2, d2.t2_col⟩
  else if d1.t2 = d2.t2 ∧ d1.t2_col = d2.t2_col then
    some ⟨d1.t1, d1.t1_col, d2.t1, d2.t1_col⟩
  else if d1.t1 = d2.t1 ∧ d1.t1_col = d2.t1_col then
    some ⟨d1.t2, d1.t2_col, d2.t2, d2.t2_col⟩
  else if d1.t1 = d2.t2 ∧ d1.t1_col = d2.t2_col then
    some ⟨d1.t2, d1.t2_col, d2.t1, d2.t1_col⟩
  else none

/-- JoinGraph._join_exists: the candidate's column pair is already present
on the candidate's edge, in either orientation. -/
def joinExists (g : Graph) (tj : TransitiveJoin) : Bool :=
  match lookupEdge g (edgeKey tj.t1 tj.t2) with
  | none => false
  | some ds => ds.any fun d =>
      decide ((d.t1 = tj.t1 ∧ d.t1_col = tj.t1_col ∧ d.t2 = tj.t2 ∧ d.t2_col = tj.t2_col) ∨
        (d.t1 = tj.t2 ∧ d.t1_col = tj.t2_col ∧ d.t2 = tj.t1 ∧ d.t2_col = tj.t1_col))

/-- One candidate composition inside the closure pass: add the transitive
join unless it is a self-edge or already present. -/
def closureInner (acc : Graph × Bool) (d1 d2 : JoinDetail) : Graph × Bool :=
  match tryFormTransitiveJoin d1 d2 with
  | none => acc
  | some tj =>
    if tj.t1 ≠ tj.t2 then
      if joinExists acc.1 tj then acc
      else (addJoin acc.1 tj.t1 tj.t2 tj.t1_col tj.t2_col false, true)
    else acc

/-- One pass of JoinGraph.compute_transitive_closure: iterate over all
ordered pairs of distinct edges of the pass-start snapshot, and over all
detail pairs on them.  Returns the grown graph and the `found_new` flag. -/
def closurePass (g : Graph) : Graph × Bool :=
  g.foldl (fun acc e1 =>
    g.foldl (fun acc e2 =>
      if e1.1 = e2.1 then acc
      else e1.2.foldl (fun acc d1 =>
        e2.2.foldl (fun acc d2 => closureInner acc d1 d2) acc) acc) acc) (g, false)

/-- The closure iteration: up to `fuel` passes, stopping as soon as a full
pass adds nothing. -/
def closureIter : Nat → Graph → Graph
  | 0, g => g
  | n + 1, g =>
    let p := closurePass g
    if p.2 then closureIter n p.1 else p.1

/-- JoinGraph.compute_transitive_closure with the fixed iteration cap 10. -/
def computeTransitiveClosure (g : Graph) : Graph := closureIter 10 g

/-- All details of the graph, in storage order. -/
def allDetails (g : Graph) : List JoinDetail :=
  g.foldl (fun acc e => acc ++ e.2) []

/-! Union-find over qualified columns (JoinGraph.build_equivalence_classes).
The parent and rank dicts are insertion-ordered association lists; the
recursive `find` with path compression is given explicit fuel (every
parent chain is shorter than the number of keys, so the fuel passed by
the callers is never exhausted on states this algorithm produces). -/

/-- Union-find state: the `parent` and `rank` dicts. -/
structure UFState where
  parent : List (QCol × QCol)
  rank : List (QCol × Nat)
deriving Repr

/-- Dict lookup. -/
def assocFind? {α β : Type} [DecidableEq α] : List (α × β) → α → Option β
  | [], _ => none
  | (a, b) :: rest, x => if a = x then some b else assocFind? rest x

/-- Dict update: overwrite in place when the key exists, append otherwise. -/
def assocSet {α β : Type} [DecidableEq α] : List (α × β) → α → β → List (α × β)
  | [], x, v => [(x, v)]
  | (a, b) :: rest, x, v =>
    if a = x then (a, v) :: rest else (a, b) :: assocSet rest x v

/-- The source's `find(x)` with path compression, threading the state. -/
def ufFind : Nat → UFState → QCol → QCol × UFState
  | 0, st, x => (x, st)
  | fuel + 1, st, x =>
    match assocFind? st.parent x with
    | none =>
      (x, { st with parent := assocSet st.parent x x, rank := assocSet st.rank x 0 })
    | some p =>
      if p = x then (x, st)
      else
        let pr := ufFind fuel st p
        (pr.1, { pr.2 with parent := assocSet pr.2.parent x pr.1 })

/-- Fuel that always suffices for `ufFind` on reachable states. -/
def ufFuel (st : UFState) : Nat := st.parent.length + 1

/-- The source's `union(x, y)` with union by rank. -/
def ufUnion (st : UFState) (x y : QCol) : UFState :=
  let fx := ufFind (ufFuel st) st x
  let st1 := fx.2
  let fy := ufFind (ufFuel st1) st1 y
  let st2 := fy.2
  let rootX := fx.1
  let rootY := fy.1
  if rootX = rootY then st2
  else
    let rankX := (assocFind? st2.rank rootX).getD 0
    let rankY := (assocFind? st2.rank rootY).getD 0
    if rankX < rankY then { st2 with parent := assocSet st2.parent rootX rootY }
    else if rankY < rankX then { st2 with parent := assocSet st2.parent rootY rootX }
    else
      { parent := assocSet st2.parent rootY rootX,
        rank := assocSet st2.rank rootX (rankX + 1) }

/-- Group the union-find keys by their root, preserving first-seen order of
roots and of members (the `ec_groups` dict of the source). -/
def ufGroups (st : UFState) : List (QCol × List QCol) :=
  ((st.parent.map Prod.fst).foldl (fun acc tc =>
    let fr := ufFind (ufFuel acc.2) acc.2 tc
    let groups :=
      match assocFind? acc.1 fr.1 with
      | some grp => assocSet acc.1 fr.1 (grp ++ [tc])
      | none => acc.1 ++ [(fr.1, [tc])]
    (groups, fr.2)) ([], st)).1

/-- JoinGraph.build_equivalence_classes: union the two endpoints of every
detail, then group by root. -/
def buildEquivalenceClasses (g : Graph) : List (List QCol) :=
  let st := (allDetails g).foldl (fun st d =>
    ufUnion st ⟨d.t1, d.t1_col⟩ ⟨d.t2, d.t2_col⟩) ⟨[], []⟩
  (ufGroups st).map Prod.snd

/-- JoinGraph.are_in_same_ec: some class holds a column of both tables
(the source's string prefix test, on structured columns). -/
def areInSameEC (ecs : List (List QCol)) (t1 t2 : String) : Bool :=
  ecs.any fun ec => (ec.any fun tc => tc.rel = t1) && (ec.any fun tc => tc.rel = t2)

/-- The BFS loop of JoinGraph.is_connected, with a FIFO frontier.  The fuel
bounds the number of pops; every table enters the queue at most once, so
`subset.length` pops always suffice. -/
def bfsLoop (ecs : List (List QCol)) (subset : List String) :
    Nat → List String → List String → List String
  | 0, _, visited => visited
  | _ + 1, [], visited => visited
  | fuel + 1, cur :: queueRest, visited =>
    let news := subset.filter fun o => o ∉ visited ∧ areInSameEC ecs cur o
    bfsLoop ecs subset fuel (queueRest ++ news) (visited ++ news)

/-- JoinGraph.is_connected on a subset given as a duplicate-free list. -/
def isConnected (ecs : List (List QCol)) (subset : List String) : Bool :=
  if subset.length ≤ 1 then true
  else
    match subset with
    | [] => true
    | s0 :: _ =>
      (bfsLoop ecs subset subset.length [s0] [s0]).length = subset.length

/-- JoinGraph.can_join: some table of the left shares a class with some
table of the right. -/
def canJoin (ecs : List (List QCol)) (left right : List String) : Bool :=
  left.any fun l => right.any fun r => areInSameEC ecs l r

/-! The predicate classifier (predicates.PredicateClassifier). -/

/-- Classified predicates for a subset (constants.PredicateSet). -/
structure PredicateSet where
  selections : List String
  joins : List String
  complex : List String
deriving DecidableEq, Repr

/-- The classifier: predicates in insertion order, and each predicate's
relation set (a Python set, stored as a duplicate-free list). -/
structure Classifier where
  allPredicates : List String
  predicateTables : List (String × List String)
deriving Repr

/-- Relation set of a predicate. -/
def predTables (c : Classifier) (p : String) : List String :=
  (assocFind? c.predicateTables p).getD []

/-- PredicateClassifier.get_predicates_for_subset: bucket every stored
predicate whose relation set is inside the subset, in insertion order. -/
def getPredicatesForSubset (c : Classifier) (subset : List String) : PredicateSet :=
  c.allPredicates.foldl (fun ps p =>
    let tbls := predTables c p
    if tbls.all (· ∈ subset) then
      if tbls.length = 1 then { ps with selections := ps.selections ++ [p] }
      else if tbls.length = 2 then { ps with joins := ps.joins ++ [p] }
      else { ps with complex := ps.complex ++ [p] }
    else ps) ⟨[], [], []⟩

/-! The SQL subquery renderer (sql_generator.SubqueryGenerator). -/

/-- Python `sorted` on a list of aliases. -/
def sortStrings (l : List String) : List String :=
  l.insertionSort strLERel

/-- Alias-to-base-table map. -/
abbrev AliasMap := List (String × String)

/-- SubqueryGenerator._render_table. -/
def renderTable (aliases : AliasMap) (a : String) : String :=
  let base := (assocFind? aliases a).getD a
  if base ≠ a then base ++ " " ++ a else base

/-- A join predicate with its priority flag (constants.JoinPredicate). -/
structure JoinPredicateR where
  predicate : String
  is_original : Bool
deriving DecidableEq, Repr

/-- The predicate text rendered for a detail, in its canonical
orientation. -/
def renderDetail (d : JoinDetail) : String :=
  d.t1 ++ "." ++ d.t1_col ++ " = " ++ d.t2 ++ "." ++ d.t2_col

/-- Sort key of SubqueryGenerator._find_join_predicates: original joins
first, then by predicate text. -/
def predBefore (p q : JoinPredicateR) : Prop :=
  if p.is_original = q.is_original then strLERel p.predicate q.predicate
  else p.is_original = true

instance : DecidableRel predBefore := fun p q => by
  unfold predBefore; split <;> infer_instance

/-- SubqueryGenerator._find_join_predicates. -/
def findJoinPredicates (g : Graph) (lefts rights : List String) :
    List JoinPredicateR :=
  let preds := lefts.foldl (fun acc l =>
    rights.foldl (fun acc r =>
      match lookupEdge g (edgeKey l r) with
      | none => acc
      | some ds => acc ++ ds.map fun d => ⟨renderDetail d, d.is_original⟩) acc) []
  preds.insertionSort predBefore

/-- Next table to attach with its join predicate (constants.NextTable). -/
structure NextTable where
  table : String
  joinPred : Option JoinPredicateR
deriving DecidableEq, Repr

/-- SubqueryGenerator._find_next_table_for_join_tree.  `ord` is the
iteration order of the `added_tables` Python set: the source iterates an
unordered set here, so the order is an explicit oracle; the canonical run
uses insertion order (`id`). -/
def findNextTableOrd (g : Graph) (ord : List String → List String)
    (addedTables remainingTables : List String) : Option NextTable :=
  let srem := sortStrings remainingTables
  let firstOriginal := srem.findSome? fun t =>
    (ord addedTables).findSome? fun a =>
      ((findJoinPredicates g [a] [t]).find? fun p => p.is_original).map
        fun p => NextTable.mk t (some p)
  match firstOriginal with
  | some nt => some nt
  | none =>
    srem.findSome? fun t =>
      (ord addedTables).findSome? fun a =>
        match findJoinPredicates g [a] [t] with
        | [] => none
        | p :: _ => some (NextTable.mk t (some p))

/-- The JOIN-tree loop of SubqueryGenerator._generate_join_query,
accumulating the FROM clause and the set of consumed ON predicates.  The
fuel bounds the iterations; each iteration removes the attached table
from `remaining`, so `remaining.length` always suffices. -/
def buildJoinTree (g : Graph) (aliases : AliasMap)
    (ord : List String → List String) :
    Nat → List String → List String → String → List String →
    String × List String
  | 0, _, _, fromClause, used => (fromClause, used)
  | _ + 1, _, [], fromClause, used => (fromClause, used)
  | fuel + 1, added, r0 :: rrest, fromClause, used =>
    match findNextTableOrd g ord added (r0 :: rrest) with
    | none => (fromClause, used)
    | some nt =>
      let fc := fromClause ++ "\nJOIN " ++ renderTable aliases nt.table
      match nt.joinPred with
      | some jp =>
        buildJoinTree g aliases ord fuel (added ++ [nt.table])
          ((r0 :: rrest).erase nt.table) (fc ++ " ON " ++ jp.predicate)
          (used ++ [jp.predicate])
      | none =>
        buildJoinTree g aliases ord fuel (added ++ [nt.table])
          ((r0 :: rrest).erase nt.table) fc used

/-- The residual predicate list of SubqueryGenerator._build_where_clause:
selections, then join predicates not textually consumed in an ON clause,
then complex predicates. -/
def whereListFor (cls : Classifier) (subset : List String)
    (used : List String) : List String :=
  let preds := getPredicatesForSubset cls subset
  preds.selections ++ preds.joins.filter (fun j => ¬ j ∈ used) ++ preds.complex

/-- SubqueryGenerator._build_where_clause. -/
def buildWhereClause (cls : Classifier) (subset : List String)
    (used : List String) : String :=
  let allP := whereListFor cls subset used
  if allP ≠ [] then String.intercalate " AND " allP else ""

/-- The result of rendering a multi-relation subset: the query text, the
ON predicates consumed, and the WHERE-clause list. -/
structure JoinQueryParts where
  text : String
  used : List String
  whereList : List String
deriving DecidableEq, Repr

/-- SubqueryGenerator._generate_join_query, seeded at the smallest alias
of the sorted subset; `left` and `right` are unused by the source
("for metadata only") and therefore do not appear. -/
def generateJoinQueryOrd (g : Graph) (aliases : AliasMap) (cls : Classifier)
    (ord : List String → List String) (subset : List String) : JoinQueryParts :=
  let sl := sortStrings subset
  match sl with
  | [] => ⟨"", [], []⟩
  | s0 :: rest =>
    let built := buildJoinTree g aliases ord rest.length [s0] rest
      (renderTable aliases s0) []
    let wl := whereListFor cls sl built.2
    let wc := buildWhereClause cls sl built.2
    if wc ≠ "" then
      ⟨"SELECT * FROM " ++ built.1 ++ "\nWHERE " ++ wc ++ ";", built.2, wl⟩
    else
      ⟨"SELECT * FROM " ++ built.1 ++ ";", built.2, wl⟩

/-- SubqueryGenerator._generate_base_table_query. -/
def generateBaseTableQuery (aliases : AliasMap) (cls : Classifier)
    (table : String) : String :=
  let preds := getPredicatesForSubset cls [table]
  let tc := renderTable aliases table
  if preds.selections ≠ [] then
    "SELECT COUNT(*) FROM " ++ tc ++ " WHERE " ++
      String.intercalate " AND " preds.selections ++ ";"
  else
    "SELECT COUNT(*) FROM " ++ tc ++ ";"

/-- SubqueryGenerator.generate_subquery with an explicit set-iteration
oracle.  `left` and `right` are accepted and ignored exactly as in the
source. -/
def generateSubqueryOrd (g : Graph) (aliases : AliasMap) (cls : Classifier)
    (ord : List String → List String) (subset : List String)
    (left right : Option (List String)) : String :=
  if subset.length = 1 then generateBaseTableQuery aliases cls (subset.headD "")
  else (generateJoinQueryOrd g aliases cls ord subset).text

/-- SubqueryGenerator.generate_subquery, canonical run (insertion order of
the added-tables set). -/
def generateSubquery (g : Graph) (aliases : AliasMap) (cls : Classifier)
    (subset : List String) (left right : Option (List String)) : String :=
  generateSubqueryOrd g aliases cls id subset left right

/-! The level-ordered DP enumerator (enumerator.PostgreSQLJoinEnumerator). -/

/-- One enumerated plan (constants.EnumerationPlan; the SQL field is
filled by the generator later and stays empty here, as in the
enumerator). -/
structure EnumerationPlan where
  subset : List String
  left : Option (List String)
  right : Option (List String)
  sql : String
deriving DecidableEq, Repr

/-- Decomposition record (constants.Decomposition). -/
structure Decomposition where
  left : List String
  right : List String
deriving DecidableEq, Repr

/-- Enumerator state: the DP key set and the ordered plan list. -/
structure EnumState where
  dpTable : List (List String)
  allPlans : List EnumerationPlan
deriving Repr

/-- The canonical key of a subset: the sorted alias list (the source
joins it with the `|||` delimiter, an injective encoding). -/
def canonicalKey (subset : List String) : List String :=
  sortStrings subset

/-- All `k`-element subsets of a list, in the lexicographic
position order of itertools.combinations. -/
def combos : Nat → List String → List (List String)
  | 0, _ => [[]]
  | _ + 1, [] => []
  | k + 1, x :: xs => (combos k xs).map (x :: ·) ++ combos (k + 1) xs

/-- PostgreSQLJoinEnumerator._find_valid_decomposition: smallest left size
first, left subsets in lexicographic order, admit on the first split
whose halves are both in the DP table and can join. -/
def findValidDecomposition (ecs : List (List QCol)) (dp : List (List String))
    (subset : List String) : Option Decomposition :=
  (List.range' 1 (subset.length - 1)).findSome? fun leftSize =>
    (combos leftSize (sortStrings subset)).findSome? fun l =>
      let r := subset.filter fun x => ¬ x ∈ l
      if canonicalKey l ∈ dp ∧ canonicalKey r ∈ dp ∧ canJoin ecs l r then
        some ⟨l, r⟩
      else none

/-- PostgreSQLJoinEnumerator._add_subset. -/
def addSubset (st : EnumState) (subset : List String)
    (l r : Option (List String)) : EnumState :=
  { dpTable := st.dpTable ++ [canonicalKey subset],
    allPlans := st.allPlans ++ [⟨subset, l, r, ""⟩] }

/-- One candidate of PostgreSQLJoinEnumerator._enumerate_level. -/
def enumStep (ecs : List (List QCol)) (level : Nat) (st : EnumState)
    (subsetT : List String) : EnumState :=
  if ¬ isConnected ecs subsetT then st
  else if level = 1 then addSubset st subsetT none none
  else
    match findValidDecomposition ecs st.dpTable subsetT with
    | some d => addSubset st subsetT (some d.left) (some d.right)
    | none => st

/-- PostgreSQLJoinEnumerator._enumerate_level. -/
def enumLevel (ecs : List (List QCol)) (level : Nat) (tables : List String)
    (st : EnumState) : EnumState :=
  (combos level tables).foldl (enumStep ecs level) st

/-- Enumeration result (constants.EnumerationResult); `counts` is the
insertion-ordered level-to-count dict. -/
structure EnumerationResult where
  allPlans : List EnumerationPlan
  counts : List (Nat × Nat)
deriving Repr

/-- PostgreSQLJoinEnumerator.enumerate_subsets: sort the tables, clamp the
level cap at the table count, enumerate level by level recording per-level
added counts. -/
def enumerateSubsets (ecs : List (List QCol)) (tables : List String)
    (maxLevel : Nat) : EnumerationResult :=
  let tablesS := sortStrings tables
  let ml := min maxLevel tablesS.length
  let final := (List.range' 1 ml).foldl
    (fun (acc : EnumState × List (Nat × Nat)) level =>
      let st2 := enumLevel ecs level tablesS acc.1
      (st2, acc.2 ++ [(level, st2.allPlans.length - acc.1.allPlans.length)]))
    (⟨[], []⟩, [])
  ⟨final.1.allPlans, final.2⟩

/-- main.process_query's enumeration call: the driver clamps the
`--max-level` argument at 20 before handing it to the enumerator. -/
def processQueryEnum (ecs : List (List QCol)) (tables : List String)
    (maxLevelArg : Nat) : EnumerationResult :=
  enumerateSubsets ecs tables (min maxLevelArg 20)

/-! Constant-value extraction (parser._extract_single_constant_value and
parser._normalize_value), modelled character by character after the two
regular expressions of the source. -/

/-- A parsed equi-join condition (constants.JoinCondition). -/
structure JoinCondition where
  left_table : String
  left_column : String
  right_table : String
  right_column : String
deriving DecidableEq, Repr

/-- A single constant value extracted from a predicate
(constants.ConstantValue). -/
structure ConstantValue where
  table : String
  column : String
  value : String
deriving DecidableEq, Repr

/-- A join inferred from constant equality
(constants.ConstantEqualityJoin). -/
structure ConstantEqualityJoin where
  t1 : String
  t2 : String
  column : String
deriving DecidableEq, Repr

/-- A word character of the `\w` class (ASCII inputs). -/
def isWordChar (c : Char) : Bool := c.isAlphanum || c = '_'

/-- A whitespace character of the `\s` class. -/
def isSpaceChar (c : Char) : Bool :=
  c = ' ' || c = '\t' || c = '\n' || c = '\r' || c = '\x0b' || c = '\x0c'

/-- Case-insensitive literal match at the start of the text. -/
def startsWithCI : List Char → List Char → Bool
  | _, [] => true
  | [], _ :: _ => false
  | c :: cs, p :: ps => (c.toUpper = p.toUpper) && startsWithCI cs ps

/-- The value terminator `(?:\s+(?:AND|OR)|$)` of the first pattern:
either end of text, or at least one space followed by AND or OR
(case-insensitive). -/
def matchTermAt (cs : List Char) : Bool :=
  match cs with
  | [] => true
  | c :: _ =>
    if isSpaceChar c then
      let rest := cs.dropWhile isSpaceChar
      startsWithCI rest ['A', 'N', 'D'] || startsWithCI rest ['O', 'R']
    else false

/-- The lazy value group `(.+?)`: the shortest non-empty, newline-free
span after which the terminator matches. -/
def splitValue : List Char → Option (List Char)
  | [] => none
  | c :: rest =>
    if c = '\n' then none
    else if matchTermAt rest then some [c]
    else (splitValue rest).map (c :: ·)

/-- Match `(\w+)\.(\w+)\s*=\s*(.+?)(?:\s+(?:AND|OR)|$)` anchored at the
start of the text, returning the three groups. -/
def matchEqAt (cs : List Char) : Option (List Char × List Char × List Char) :=
  let s1 := cs.span isWordChar
  if s1.1 = [] then none
  else
    match s1.2 with
    | '.' :: r2 =>
      let s2 := r2.span isWordChar
      if s2.1 = [] then none
      else
        match s2.2.dropWhile isSpaceChar with
        | '=' :: r5 =>
          (splitValue (r5.dropWhile isSpaceChar)).map fun v => (s1.1, s2.1, v)
        | _ => none
    | _ => none

/-- re.search for the first pattern: leftmost start position wins. -/
def searchEq : List Char → Option (List Char × List Char × List Char)
  | [] => none
  | c :: rest =>
    match matchEqAt (c :: rest) with
    | some found => some found
    | none => searchEq rest

/-- Match `(\w+)\.(\w+)\s+IN\s*\(([^)]+)\)` anchored at the start of the
text, returning table, column and the parenthesized list body. -/
def matchInAt (cs : List Char) : Option (List Char × List Char × List Char) :=
  let s1 := cs.span isWordChar
  if s1.1 = [] then none
  else
    match s1.2 with
    | '.' :: r2 =>
      let s2 := r2.span isWordChar
      if s2.1 = [] then none
      else
        let s3 := s2.2.span isSpaceChar
        if s3.1 = [] then none
        else if startsWithCI s3.2 ['I', 'N'] then
          match (s3.2.drop 2).dropWhile isSpaceChar with
          | '(' :: r6 =>
            let s4 := r6.span (fun c => c ≠ ')')
            match s4.2 with
            | ')' :: _ => if s4.1 = [] then none else some (s1.1, s2.1, s4.1)
            | _ => none
          | _ => none
        else none
    | _ => none

/-- re.search for the IN pattern. -/
def searchIn : List Char → Option (List Char × List Char × List Char)
  | [] => none
  | c :: rest =>
    match matchInAt (c :: rest) with
    | some found => some found
    | none => searchIn rest

/-- Python str.strip on the character list. -/
def stripChars (cs : List Char) : List Char :=
  ((cs.dropWhile isSpaceChar).reverse.dropWhile isSpaceChar).reverse

/-- Python str.split(',') on the character list. -/
def splitComma : List Char → List (List Char)
  | [] => [[]]
  | c :: rest =>
    if c = ',' then [] :: splitComma rest
    else
      match splitComma rest with
      | [] => [[c]]
      | p :: ps => (c :: p) :: ps

/-- A quote character of the `['\"]` class. -/
def isQuoteChar (c : Char) : Bool := c = '\'' || c = '"'

/-- Remove one leading and one trailing quote
(re.sub `^['\"]|['\"]$`). -/
def removeQuotes (cs : List Char) : List Char :=
  let cs1 :=
    match cs with
    | c :: rest => if isQuoteChar c then rest else cs
    | [] => []
  match cs1.reverse with
  | c :: restRev => if isQuoteChar c then restRev.reverse else cs1
  | [] => cs1

/-- Remove a trailing `::word` type cast (re.sub `::\w+$`). -/
def removeCast (cs : List Char) : List Char :=
  let s := cs.reverse.span isWordChar
  match s.1, s.2 with
  | _ :: _, ':' :: ':' :: restRev => restRev.reverse
  | _, _ => cs

/-- parser._normalize_value: strip, remove outer quotes, remove the
trailing type cast, strip again. -/
def normalizeValue (cs : List Char) : String :=
  String.mk (stripChars (removeCast (removeQuotes (stripChars cs))))

/-- parser._extract_single_constant_value: the equality pattern first,
then the single-element IN pattern. -/
def extractSingleConstantValue (pred : String) : Option ConstantValue :=
  let cs := pred.toList
  match searchEq cs with
  | some found =>
    some ⟨String.mk found.1, String.mk found.2.1, normalizeValue found.2.2⟩
  | none =>
    match searchIn cs with
    | some found =>
      let values := (splitComma found.2.2).map stripChars
      match values with
      | [v] => some ⟨String.mk found.1, String.mk found.2.1, normalizeValue v⟩
      | _ => none
    | none => none

/-- The dict key `f"{column}:{value}"` used to group constant facts. -/
def factKey (cv : ConstantValue) : String := cv.column ++ ":" ++ cv.value

/-- Append a fact to its group, creating the group at the end when new
(dict insertion order). -/
def groupAdd (gs : List (String × List ConstantValue)) (k : String)
    (cv : ConstantValue) : List (String × List ConstantValue) :=
  match assocFind? gs k with
  | some grp => assocSet gs k (grp ++ [cv])
  | none => gs ++ [(k, [cv])]

/-- All ordered index pairs i < j of a group, as constant-equality joins
on the first member's column. -/
def pairsOf : List ConstantValue → List ConstantEqualityJoin
  | [] => []
  | cv :: rest =>
    rest.map (fun cw => ⟨cv.table, cw.table, cv.column⟩) ++ pairsOf rest

/-- The per-table fact collection of parser._detect_constant_equality_joins:
scan each table's selection predicates for single-value constants. -/
def collectFacts (cls : Classifier) (tables : List String) : List ConstantValue :=
  tables.foldl (fun acc t =>
    (getPredicatesForSubset cls [t]).selections.foldl (fun acc p =>
      match extractSingleConstantValue p with
      | some cv => acc ++ [cv]
      | none => acc) acc) []

/-- Lookup of a constant-fact group, defaulting to the empty group. -/
def groupLookup (gs : List (String × List ConstantValue)) (k : String) :
    List ConstantValue :=
  (assocFind? gs k).getD []

/-- The grouping fold of parser._detect_constant_equality_joins. -/
def buildGroups (facts : List ConstantValue) :
    List (String × List ConstantValue) :=
  facts.foldl (fun gs cv => groupAdd gs (factKey cv) cv) []

/-- The grouping-and-pairing half of
parser._detect_constant_equality_joins, on an explicit fact list. -/
def detectFromFacts (facts : List ConstantValue) : List ConstantEqualityJoin :=
  (buildGroups facts).foldl (fun js e =>
    if 2 ≤ e.2.length then js ++ pairsOf e.2 else js) []

/-- parser._detect_constant_equality_joins. -/
def detectConstantEqualityJoins (cls : Classifier) (tables : List String) :
    List ConstantEqualityJoin :=
  detectFromFacts (collectFacts cls tables)

/-- Ingest the asserted equi-join conditions (parser.parse_sql, original
joins). -/
def ingestJoins (g : Graph) (jcs : List JoinCondition) : Graph :=
  jcs.foldl (fun g jc =>
    addJoin g jc.left_table jc.right_table jc.left_column jc.right_column true) g

/-- Ingest the constant-equality joins (parser.parse_sql, derived). -/
def ingestConstJoins (g : Graph) (cjs : List ConstantEqualityJoin) : Graph :=
  cjs.foldl (fun g cj => addJoin g cj.t1 cj.t2 cj.column cj.column false) g

/-- The graph-build phase of parser.parse_sql: asserted joins, then
constant-equality joins derived from the fact list, then the transitive
closure. -/
def buildJoinGraph (jcs : List JoinCondition) (facts : List ConstantValue) :
    Graph :=
  computeTransitiveClosure
    (ingestConstJoins (ingestJoins [] jcs) (detectFromFacts facts))

/-! Concrete instances used by the witnesses and counterexamples. -/

/-- An empty classifier. -/
def clsEmpty : Classifier := ⟨[], []⟩

/-- The graph of `SELECT * FROM A, B WHERE A.x = B.y`. -/
def exGraphAB : Graph := buildJoinGraph [⟨"A", "x", "B", "y"⟩] []

/-- The graph of a triangle query with three asserted joins on distinct
column pairs: `A.x = B.y AND A.u = C.v AND B.w = C.t`. -/
def exGraphABC : Graph :=
  buildJoinGraph [⟨"A", "x", "B", "y"⟩, ⟨"A", "u", "C", "v"⟩, ⟨"B", "w", "C", "t"⟩] []

/-- The classifier of scenario 3:
`it1.info = 'rating' AND it2.info = 'rating'`. -/
def clsRating : Classifier :=
  ⟨["it1.info = 'rating'", "it2.info = 'rating'"],
   [("it1.info = 'rating'", ["it1"]), ("it2.info = 'rating'", ["it2"])]⟩

/-- The graph built from scenario 3 (a single derived constant-equality
edge). -/
def exGraphRating : Graph :=
  buildJoinGraph [] (collectFacts clsRating ["it1", "it2"])

/-- Spec-side reading for C1: the emitted text is a self-contained counting
query, that is, a SELECT COUNT(*) statement. -/
def specIsCountingQuery (s : String) : Prop :=
  ∃ rest, s = "SELECT COUNT(*)" ++ rest

/-- Spec-side reading for C7: a predicate exactly of the form
`relation.col = constant` or `relation.col IN (constant)`, where the
constant is a single space-free token (one value, not a disjunction, not
a column reference chain). -/
def specConstantForm (p : String) : Bool :=
  let cs := p.toList
  let s1 := cs.span isWordChar
  match s1.2 with
  | '.' :: r2 =>
    let s2 := r2.span isWordChar
    (!s1.1.isEmpty && !s2.1.isEmpty) &&
      (match s2.2 with
       | ' ' :: '=' :: ' ' :: v =>
         !v.isEmpty && v.all fun c => !isSpaceChar c
       | ' ' :: 'I' :: 'N' :: ' ' :: '(' :: r =>
         (match r.span fun c => c ≠ ')' with
          | (tok, [')']) =>
            !tok.isEmpty && tok.all fun c => !isSpaceChar c && c ≠ ','
          | _ => false)
       | _ => false)
  | _ => false


/-! Theorems. -/

/-- A literal prefix of a literal string survives appending. -/
theorem exists_pre (pre2 : String) {pre1 full : String}
    (h : pre1 ++ pre2 = full) (x : String) :
    ∃ rest, full ++ x = pre1 ++ rest :=
  ⟨pre2 ++ x, by rw [← h, String.append_assoc]⟩

/-- A string prefix survives appending on the right. -/
theorem exists_rest_append_left {pre mid : String}
    (h : ∃ rest0, mid = pre ++ rest0) (x : String) :
    ∃ rest, mid ++ x = pre ++ rest := by
  obtain ⟨r0, hr⟩ := h
  exact ⟨r0 ++ x, by rw [hr, String.append_assoc]⟩

/-- C10: For every subset S and any two pairs of optional decomposition
arguments, generate_subquery returns the same text: the rendered SQL does
not depend on the decomposition witness, since the source ignores `left`
and `right` and rebuilds the join tree from the sorted subset alone. -/
theorem c10_sql_independent_of_decomposition (g : Graph) (aliases : AliasMap)
    (cls : Classifier) (subset : List String)
    (l r l2 r2 : Option (List String)) :
    generateSubquery g aliases cls subset l r =
      generateSubquery g aliases cls subset l2 r2 := rfl

/-- C1 counterexample: the emitted query for the multi-relation subset
{A, B} of `SELECT * FROM A, B WHERE A.x = B.y` is not a SELECT COUNT(*)
statement (the source renders multi-relation subsets with SELECT *). -/
theorem c1_counterexample :
    ¬ specIsCountingQuery
      (generateSubquery exGraphAB [] clsEmpty ["A", "B"]
        (some ["A"]) (some ["B"])) := by
  intro h
  obtain ⟨rest, h⟩ := h
  have hq : generateSubquery exGraphAB [] clsEmpty ["A", "B"]
      (some ["A"]) (some ["B"]) = "SELECT * FROM A\nJOIN B ON A.x = B.y;" := by
    decide
  rw [hq] at h
  have hd := congrArg String.data h
  rw [String.data_append] at hd
  have ht := congrArg (List.take ("SELECT COUNT(*)".data).length) hd
  rw [List.take_left] at ht
  revert ht
  decide

/-- C1 (amended): the emitted query text is a self-contained SELECT
COUNT(*) counting query exactly for singleton subsets; every
multi-relation subset is emitted as a SELECT * join query. -/
theorem c1_amended (g : Graph) (aliases : AliasMap) (cls : Classifier)
    (subset : List String) (l r : Option (List String)) :
    (subset.length = 1 →
      ∃ rest, generateSubquery g aliases cls subset l r =
        "SELECT COUNT(*)" ++ rest) ∧
    (2 ≤ subset.length →
      ∃ rest, generateSubquery g aliases cls subset l r =
        "SELECT *" ++ rest) := by
  constructor
  · intro h1
    unfold generateSubquery generateSubqueryOrd generateBaseTableQuery
    rw [if_pos h1]
    dsimp only
    split_ifs with hs
    · exact exists_rest_append_left (exists_rest_append_left
        (exists_rest_append_left (exists_pre " FROM " (by decide) _) _) _) _
    · exact exists_rest_append_left (exists_pre " FROM " (by decide) _) _
  · intro h2
    unfold generateSubquery generateSubqueryOrd
    rw [if_neg (by omega)]
    unfold generateJoinQueryOrd
    have hlen : (sortStrings subset).length = subset.length :=
      List.length_insertionSort _ _
    cases hsl : sortStrings subset with
    | nil => rw [hsl] at hlen; simp at hlen; omega
    | cons s0 rest0 =>
      dsimp only
      split_ifs with hw
      · exact exists_rest_append_left (exists_rest_append_left
          (exists_rest_append_left (exists_pre " FROM " (by decide) _) _) _) _
      · exact exists_rest_append_left (exists_pre " FROM " (by decide) _) _

/-- Witness for the amended C1 at concrete inputs: the singleton {A} and
the pair {A, B} of the query `SELECT * FROM A, B WHERE A.x = B.y`. -/
theorem c1_amended_witness :
    (["A"].length = 1 ∧
      ∃ rest, generateSubquery exGraphAB [] clsEmpty ["A"] none none =
        "SELECT COUNT(*)" ++ rest) ∧
    (2 ≤ ["A", "B"].length ∧
      ∃ rest, generateSubquery exGraphAB [] clsEmpty ["A", "B"]
        (some ["A"]) (some ["B"]) = "SELECT *" ++ rest) :=
  ⟨⟨by decide,
    (c1_amended exGraphAB [] clsEmpty ["A"] none none).1 (by decide)⟩,
   ⟨by decide,
    (c1_amended exGraphAB [] clsEmpty ["A", "B"]
      (some ["A"]) (some ["B"])).2 (by decide)⟩⟩

/-- C2: the rendered SQL text depends on the iteration order of the
`added_tables` Python set.  On the triangle query, attaching C after
{A, B} picks the ON predicate from whichever added table the set yields
first, so two runs with different set iteration orders (different string
hash seeds) emit different texts for the same parsed input. -/
theorem c2_sql_depends_on_set_iteration_order :
    (generateJoinQueryOrd exGraphABC [] clsEmpty id ["A", "B", "C"]).text ≠
    (generateJoinQueryOrd exGraphABC [] clsEmpty List.reverse
      ["A", "B", "C"]).text := by decide

/-- C8: the constant-equality derivation can store a self-edge: when one
relation contributes the same (column, value) fact twice (for example
`A.x = 1 AND A.x IN (1)`), the pairing loop emits a join of A with itself
and the build phase stores a detail with equal endpoints. -/
theorem c8_self_edge_detail :
    ∃ d ∈ allDetails (buildJoinGraph [] [⟨"A", "x", "1"⟩, ⟨"A", "x", "1"⟩]),
      d.t1 = d.t2 := by decide

/-- The level keys recorded by the per-level fold of
enumerate_subsets. -/
theorem enumFold_counts_fst (ecs : List (List QCol)) (tablesS : List String) :
    ∀ (levels : List Nat) (acc : EnumState × List (Nat × Nat)),
      ((levels.foldl (fun (acc : EnumState × List (Nat × Nat)) level =>
          let st2 := enumLevel ecs level tablesS acc.1
          (st2, acc.2 ++ [(level, st2.allPlans.length - acc.1.allPlans.length)]))
          acc).2).map Prod.fst
        = acc.2.map Prod.fst ++ levels := by
  intro levels
  induction levels with
  | nil => intro acc; simp
  | cons l ls ih =>
    intro acc
    simp only [List.foldl_cons]
    rw [ih]
    simp

/-- The levels the enumeration actually runs, including the driver's
clamp of `--max-level` at 20 (main.process_query). -/
theorem processQueryEnum_levels (ecs : List (List QCol)) (tables : List String)
    (maxLevelArg : Nat) :
    (processQueryEnum ecs tables maxLevelArg).counts.map Prod.fst =
      List.range' 1 (min (min maxLevelArg 20) tables.length) := by
  unfold processQueryEnum enumerateSubsets
  rw [enumFold_counts_fst]
  simp [sortStrings, List.length_insertionSort]

/-- C9 counterexample: with --max-level 25 and a 21-relation query, the
claimed level range 1 … min(25, 21) = 1 … 21 is not what runs; the driver
caps the level at 20 before calling the enumerator. -/
theorem c9_counterexample :
    (processQueryEnum []
      ["t01", "t02", "t03", "t04", "t05", "t06", "t07", "t08", "t09", "t10",
       "t11", "t12", "t13", "t14", "t15", "t16", "t17", "t18", "t19", "t20",
       "t21"] 25).counts.map Prod.fst ≠
      List.range' 1 (min 25
        (["t01", "t02", "t03", "t04", "t05", "t06", "t07", "t08", "t09",
          "t10", "t11", "t12", "t13", "t14", "t15", "t16", "t17", "t18",
          "t19", "t20", "t21"] : List String).length) := by
  rw [processQueryEnum_levels]
  decide

/-- C9 (amended): for a --max-level argument K the enumeration runs over
levels k = 1 … min(K, 20, |T|): the driver clamps K at the hard cap 20 and
the enumerator clamps at the relation count. -/
theorem c9_amended (ecs : List (List QCol)) (tables : List String) (K : Nat) :
    (processQueryEnum ecs tables K).counts.map Prod.fst =
      List.range' 1 (min (min K 20) tables.length) :=
  processQueryEnum_levels ecs tables K

/-! Lemmas on association lists and the constant-fact grouping. -/

theorem assocFind?_assocSet_self {α β : Type} [DecidableEq α]
    (m : List (α × β)) (k : α) (v : β) :
    assocFind? (assocSet m k v) k = some v := by
  induction m with
  | nil => simp [assocSet, assocFind?]
  | cons e rest ih =>
    obtain ⟨a, b⟩ := e
    by_cases h : a = k
    · simp [assocSet, assocFind?, h]
    · simp [assocSet, assocFind?, h, ih]

theorem assocFind?_assocSet_ne {α β : Type} [DecidableEq α]
    (m : List (α × β)) (k0 k : α) (v : β) (h : k0 ≠ k) :
    assocFind? (assocSet m k0 v) k = assocFind? m k := by
  induction m with
  | nil => simp [assocSet, assocFind?, h]
  | cons e rest ih =>
    obtain ⟨a, b⟩ := e
    by_cases ha : a = k0
    · subst ha
      simp [assocSet, assocFind?, h, ih]
    · simp [assocSet, assocFind?, ha, ih]

theorem assocFind?_append_single {α β : Type} [DecidableEq α]
    (m : List (α × β)) (k0 k : α) (v : β) :
    assocFind? (m ++ [(k0, v)]) k =
      match assocFind? m k with
      | some w => some w
      | none => if k0 = k then some v else none := by
  induction m with
  | nil => simp [assocFind?]
  | cons e rest ih =>
    obtain ⟨a, b⟩ := e
    by_cases ha : a = k
    · simp [assocFind?, ha]
    · simp [assocFind?, ha, ih]

theorem assocFind?_mem {α β : Type} [DecidableEq α]
    {m : List (α × β)} {k : α} {v : β} (h : assocFind? m k = some v) :
    (k, v) ∈ m := by
  induction m with
  | nil => simp [assocFind?] at h
  | cons e rest ih =>
    obtain ⟨a, b⟩ := e
    by_cases ha : a = k
    · subst ha
      have hb : b = v := by simpa [assocFind?] using h
      subst hb
      exact List.mem_cons_self _ _
    · simp only [assocFind?, if_neg ha] at h
      exact List.mem_cons_of_mem _ (ih h)

theorem groupAdd_lookup (gs : List (String × List ConstantValue))
    (k0 k : String) (cv : ConstantValue) :
    groupLookup (groupAdd gs k0 cv) k =
      if k0 = k then groupLookup gs k ++ [cv] else groupLookup gs k := by
  unfold groupAdd groupLookup
  cases hf : assocFind? gs k0 with
  | some grp =>
    by_cases hk : k0 = k
    · subst hk
      rw [assocFind?_assocSet_self, hf]
      simp
    · rw [assocFind?_assocSet_ne _ _ _ _ hk]
      simp [hk]
  | none =>
    rw [assocFind?_append_single]
    by_cases hk : k0 = k
    · subst hk
      rw [hf]
      simp
    · cases hg : assocFind? gs k with
      | some w => simp [hk]
      | none => simp [hk]

theorem buildGroups_lookup (facts : List ConstantValue) (k : String) :
    groupLookup (buildGroups facts) k =
      facts.filter (fun f => factKey f == k) := by
  suffices h : ∀ (fs : List ConstantValue) (gs0 : List (String × List ConstantValue)),
      groupLookup (fs.foldl (fun gs cv => groupAdd gs (factKey cv) cv) gs0) k =
        groupLookup gs0 k ++ fs.filter (fun f => factKey f == k) by
    have := h facts []
    simpa [buildGroups, groupLookup, assocFind?] using this
  intro fs
  induction fs with
  | nil => intro gs0; simp
  | cons f fs ih =>
    intro gs0
    simp only [List.foldl_cons, List.filter_cons]
    rw [ih, groupAdd_lookup]
    by_cases hk : factKey f = k
    · simp [hk]
    · simp [hk]

theorem pairsOf_mem {f1 f2 : ConstantValue} :
    ∀ {grp : List ConstantValue}, List.Sublist [f1, f2] grp →
      (⟨f1.table, f2.table, f1.column⟩ : ConstantEqualityJoin) ∈ pairsOf grp := by
  intro grp
  induction grp with
  | nil => intro h; cases h
  | cons g gs ih =>
    intro h
    cases h with
    | cons _ h2 =>
      exact List.mem_append_right _ (ih h2)
    | cons₂ _ h2 =>
      apply List.mem_append_left
      exact List.mem_map_of_mem _ (List.singleton_sublist.mp h2)

theorem foldPairs_mem (x : ConstantEqualityJoin) :
    ∀ (groups : List (String × List ConstantValue))
      (js0 : List ConstantEqualityJoin),
      (x ∈ js0 ∨ ∃ e ∈ groups, 2 ≤ e.2.length ∧ x ∈ pairsOf e.2) →
      x ∈ groups.foldl (fun js e =>
        if 2 ≤ e.2.length then js ++ pairsOf e.2 else js) js0 := by
  intro groups
  induction groups with
  | nil =>
    intro js0 h
    rcases h with h | ⟨e, he, _⟩
    · simpa using h
    · cases he
  | cons e es ih =>
    intro js0 h
    simp only [List.foldl_cons]
    rcases h with h | ⟨e2, he2, hlen, hx⟩
    · apply ih
      left
      split_ifs with hl
      · exact List.mem_append_left _ h
      · exact h
    · rcases List.mem_cons.mp he2 with he2 | he2
      · subst he2
        apply ih
        left
        rw [if_pos hlen]
        exact List.mem_append_right _ hx
      · exact ih _ (Or.inr ⟨e2, he2, hlen, hx⟩)

/-- Splitting at a delimiter absent from both left parts is injective. -/
theorem delim_split {c0 : Char} {l1 l2 v1 v2 : List Char} (h1 : c0 ∉ l1)
    (h2 : c0 ∉ l2) (h : l1 ++ c0 :: v1 = l2 ++ c0 :: v2) :
    l1 = l2 ∧ v1 = v2 := by
  induction l1 generalizing l2 with
  | nil =>
    cases l2 with
    | nil => simpa using h
    | cons d l2t =>
      simp only [List.nil_append, List.cons_append, List.cons.injEq] at h
      exact absurd (h.1 ▸ List.mem_cons_self d l2t) (by simpa [← h.1] using h2)
  | cons c l1t ih =>
    cases l2 with
    | nil =>
      simp only [List.cons_append, List.nil_append, List.cons.injEq] at h
      exact absurd (h.1 ▸ List.mem_cons_self c l1t) (by simpa [h.1] using h1)
    | cons d l2t =>
      simp only [List.cons_append, List.cons.injEq] at h
      obtain ⟨hcd, hrest⟩ := h
      have := ih (fun hc => h1 (List.mem_cons_of_mem _ hc))
        (fun hc => h2 (List.mem_cons_of_mem _ hc)) hrest
      exact ⟨by rw [hcd, this.1], this.2⟩

theorem factKey_inj {f1 f2 : ConstantValue} (h1 : ':' ∉ f1.column.data)
    (h2 : ':' ∉ f2.column.data) (h : factKey f1 = factKey f2) :
    f1.column = f2.column ∧ f1.value = f2.value := by
  unfold factKey at h
  have hd := congrArg String.data h
  simp only [String.data_append, List.append_assoc, List.singleton_append] at hd
  have := delim_split h1 h2 hd
  exact ⟨String.ext this.1, String.ext this.2⟩

/-- C7 counterexample: the predicate `A.x = 5 OR A.y = 7` is not of the
form relation.col = constant (nor a single-constant IN), yet the
extraction contributes the fact (A, x, 5): the regular expression matches
the embedded `A.x = 5` up to the ` OR`. -/
theorem c7_counterexample :
    ¬ (∀ p : String, extractSingleConstantValue p ≠ none →
        specConstantForm p = true) := by
  intro h
  have := h "A.x = 5 OR A.y = 7" (by decide)
  revert this
  decide

/-- C7 (amended): inequalities, pattern-match tests, null tests and
multi-value IN lists contribute no fact, and single-constant equalities
and IN lists do; but the extraction fires on any embedded
`rel.col = value` match (value delimited by a following AND/OR or the end
of text), so disjunctions and same-relation column equalities also
contribute.  Whenever two facts (wherever in the fact list) share the
same key — same column, same normalized value, for colon-free column
names — the pair of their relations receives a derived constant-equality
join on that column. -/
theorem c7_amended :
    (extractSingleConstantValue "A.z > 10" = none ∧
     extractSingleConstantValue "a.x LIKE 'foo%'" = none ∧
     extractSingleConstantValue "a.x IS NULL" = none ∧
     extractSingleConstantValue "a.x IN ('p', 'q')" = none ∧
     extractSingleConstantValue "a.x IN ('v')" = some ⟨"a", "x", "v"⟩ ∧
     extractSingleConstantValue "a.info = 'rating'" =
       some ⟨"a", "info", "rating"⟩ ∧
     extractSingleConstantValue "A.x = 5 OR A.y = 7" = some ⟨"A", "x", "5"⟩) ∧
    ∀ (facts : List ConstantValue) (f1 f2 : ConstantValue),
      (∀ f ∈ facts, ':' ∉ f.column.data) →
      List.Sublist [f1, f2] facts →
      factKey f1 = factKey f2 →
      f2.column = f1.column ∧
        (⟨f1.table, f2.table, f1.column⟩ : ConstantEqualityJoin) ∈
          detectFromFacts facts := by
  refine ⟨by decide, ?_⟩
  intro facts f1 f2 hcol hsub hkey
  have hf1 : f1 ∈ facts := hsub.subset (by simp)
  have hf2 : f2 ∈ facts := hsub.subset (by simp)
  have hcols := factKey_inj (hcol f1 hf1) (hcol f2 hf2) hkey
  refine ⟨hcols.1.symm, ?_⟩
  have hfil : List.Sublist [f1, f2]
      (facts.filter (fun f => factKey f == factKey f1)) := by
    have hstep := List.Sublist.filter (fun f => factKey f == factKey f1) hsub
    have : [f1, f2].filter (fun f => factKey f == factKey f1) = [f1, f2] := by
      simp [List.filter, hkey]
    rwa [this] at hstep
  have hlk := buildGroups_lookup facts (factKey f1)
  cases hfind : assocFind? (buildGroups facts) (factKey f1) with
  | none =>
    rw [groupLookup] at hlk
    rw [hfind] at hlk
    have : f1 ∈ facts.filter (fun f => factKey f == factKey f1) :=
      hfil.subset (by simp)
    rw [← hlk] at this
    simp at this
  | some grp =>
    have hgrp : grp = facts.filter (fun f => factKey f == factKey f1) := by
      rw [groupLookup, hfind] at hlk
      simpa using hlk
    have hmem : (factKey f1, grp) ∈ buildGroups facts := assocFind?_mem hfind
    have hlen : 2 ≤ grp.length := by
      rw [hgrp]
      simpa using hfil.length_le
    have hpair : (⟨f1.table, f2.table, f1.column⟩ : ConstantEqualityJoin) ∈
        pairsOf grp := by
      rw [hgrp]
      exact pairsOf_mem hfil
    unfold detectFromFacts
    exact foldPairs_mem _ _ _ (Or.inr ⟨(factKey f1, grp), hmem, hlen, hpair⟩)

/-- Witness for the amended C7: two relations sharing the fact
(info, rating) receive the derived edge it1–it2 on column info. -/
theorem c7_amended_witness :
    ((∀ f ∈ ([⟨"it1", "info", "rating"⟩, ⟨"it2", "info", "rating"⟩] :
        List ConstantValue), ':' ∉ f.column.data) ∧
     List.Sublist [(⟨"it1", "info", "rating"⟩ : ConstantValue),
        ⟨"it2", "info", "rating"⟩]
        [⟨"it1", "info", "rating"⟩, ⟨"it2", "info", "rating"⟩] ∧
     factKey ⟨"it1", "info", "rating"⟩ = factKey ⟨"it2", "info", "rating"⟩) ∧
    ((⟨"it2", "info", "rating"⟩ : ConstantValue).column =
        (⟨"it1", "info", "rating"⟩ : ConstantValue).column ∧
      (⟨"it1", "it2", "info"⟩ : ConstantEqualityJoin) ∈
        detectFromFacts [⟨"it1", "info", "rating"⟩, ⟨"it2", "info", "rating"⟩]) :=
  ⟨⟨by decide, List.Sublist.refl _, by decide⟩,
   c7_amended.2 [⟨"it1", "info", "rating"⟩, ⟨"it2", "info", "rating"⟩]
     ⟨"it1", "info", "rating"⟩ ⟨"it2", "info", "rating"⟩
     (by decide) (List.Sublist.refl _) (by decide)⟩

/-! The renderer's ON predicates come from graph details between distinct
subset relations (used by C5). -/

/-- A predicate text that renders some stored join detail between two
distinct relations of S. -/
def usedFromDetails (g : Graph) (S : List String) (p : String) : Prop :=
  ∃ a b, a ∈ S ∧ b ∈ S ∧ a ≠ b ∧
    ∃ ds, lookupEdge g (edgeKey a b) = some ds ∧ ∃ d ∈ ds, p = renderDetail d

theorem mem_findJoinPredicates_single {g : Graph} {a t : String}
    {p : JoinPredicateR} (hp : p ∈ findJoinPredicates g [a] [t]) :
    ∃ ds, lookupEdge g (edgeKey a t) = some ds ∧
      ∃ d ∈ ds, p = ⟨renderDetail d, d.is_original⟩ := by
  unfold findJoinPredicates at hp
  have hp2 := (List.perm_insertionSort predBefore _).subset hp
  simp only [List.foldl_cons, List.foldl_nil] at hp2
  cases hlk : lookupEdge g (edgeKey a t) with
  | none => rw [hlk] at hp2; simp at hp2
  | some ds =>
    rw [hlk] at hp2
    simp only [List.nil_append, List.mem_map] at hp2
    obtain ⟨d, hd, hdp⟩ := hp2
    exact ⟨ds, rfl, d, hd, hdp.symm⟩

theorem findNextTableOrd_spec {g : Graph} {ord : List String → List String}
    {added remaining : List String} {nt : NextTable}
    (h : findNextTableOrd g ord added remaining = some nt) :
    nt.table ∈ remaining ∧
      ∀ jp, nt.joinPred = some jp →
        ∃ a ∈ ord added, ∃ ds, lookupEdge g (edgeKey a nt.table) = some ds ∧
          ∃ d ∈ ds, jp.predicate = renderDetail d := by
  unfold findNextTableOrd at h
  dsimp only at h
  cases hfo : (sortStrings remaining).findSome? (fun t =>
      (ord added).findSome? fun a =>
        ((findJoinPredicates g [a] [t]).find? fun p => p.is_original).map
          fun p => NextTable.mk t (some p)) with
  | some nt2 =>
    rw [hfo] at h
    simp only [Option.some.injEq] at h
    subst h
    obtain ⟨t, ht, hinner⟩ := List.exists_of_findSome?_eq_some hfo
    obtain ⟨a, ha, hfind⟩ := List.exists_of_findSome?_eq_some hinner
    cases hf : (findJoinPredicates g [a] [t]).find? fun p => p.is_original with
    | none => rw [hf] at hfind; simp at hfind
    | some p =>
      rw [hf] at hfind
      simp only [Option.map, Option.some.injEq] at hfind
      have hpm := List.mem_of_find?_eq_some hf
      obtain ⟨ds, hds, d, hd, hpd⟩ := mem_findJoinPredicates_single hpm
      have htt : nt2.table = t := by rw [← hfind]
      have hjj : nt2.joinPred = some p := by rw [← hfind]
      constructor
      · rw [htt]
        exact (List.perm_insertionSort strLERel remaining).subset ht
      · intro jp hjp
        rw [hjj] at hjp
        obtain rfl : p = jp := by simpa using hjp
        refine ⟨a, ha, ds, ?_, d, hd, by rw [hpd]⟩
        rw [htt]
        exact hds
  | none =>
    rw [hfo] at h
    obtain ⟨t, ht, hinner⟩ := List.exists_of_findSome?_eq_some h
    obtain ⟨a, ha, hfind⟩ := List.exists_of_findSome?_eq_some hinner
    cases hf : findJoinPredicates g [a] [t] with
    | nil => rw [hf] at hfind; simp at hfind
    | cons p ps =>
      rw [hf] at hfind
      simp only [Option.some.injEq] at hfind
      have hpm : p ∈ findJoinPredicates g [a] [t] := by
        rw [hf]; exact List.mem_cons_self _ _
      obtain ⟨ds, hds, d, hd, hpd⟩ := mem_findJoinPredicates_single hpm
      have htt : nt.table = t := by rw [← hfind]
      have hjj : nt.joinPred = some p := by rw [← hfind]
      constructor
      · rw [htt]
        exact (List.perm_insertionSort strLERel remaining).subset ht
      · intro jp hjp
        rw [hjj] at hjp
        obtain rfl : p = jp := by simpa using hjp
        refine ⟨a, ha, ds, ?_, d, hd, by rw [hpd]⟩
        rw [htt]
        exact hds

theorem buildJoinTree_used_spec (g : Graph) (aliases : AliasMap)
    (ord : List String → List String)
    (hord : ∀ (l : List String) (x : String), x ∈ ord l → x ∈ l)
    (S : List String) :
    ∀ (fuel : Nat) (added remaining : List String) (fc : String)
      (used : List String),
      (∀ x ∈ added, x ∈ S) → (∀ x ∈ remaining, x ∈ S) →
      (∀ x, ¬ (x ∈ added ∧ x ∈ remaining)) → remaining.Nodup →
      (∀ p ∈ used, usedFromDetails g S p) →
      ∀ p ∈ (buildJoinTree g aliases ord fuel added remaining fc used).2,
        usedFromDetails g S p := by
  intro fuel
  induction fuel with
  | zero =>
    intro added remaining fc used _ _ _ _ hused p hp
    exact hused p hp
  | succ n ih =>
    intro added remaining fc used ha hr hdisj hnd hused p hp
    cases remaining with
    | nil => exact hused p hp
    | cons r0 rrest =>
      rw [buildJoinTree] at hp
      cases hfind : findNextTableOrd g ord added (r0 :: rrest) with
      | none =>
        rw [hfind] at hp
        exact hused p hp
      | some nt =>
        rw [hfind] at hp
        dsimp only at hp
        obtain ⟨hmemt, hjp⟩ := findNextTableOrd_spec hfind
        have ha2 : ∀ x ∈ added ++ [nt.table], x ∈ S := by
          intro x hx
          rcases List.mem_append.mp hx with hx | hx
          · exact ha x hx
          · simp only [List.mem_singleton] at hx
            exact hr _ (hx ▸ hmemt)
        have hr2 : ∀ x ∈ (r0 :: rrest).erase nt.table, x ∈ S := by
          intro x hx
          exact hr x ((List.erase_sublist _ _).subset hx)
        have hdisj2 : ∀ x, ¬ (x ∈ added ++ [nt.table] ∧
            x ∈ (r0 :: rrest).erase nt.table) := by
          intro x ⟨hx1, hx2⟩
          have hx2b := (hnd.mem_erase_iff).mp hx2
          rcases List.mem_append.mp hx1 with hx1 | hx1
          · exact hdisj x ⟨hx1, hx2b.2⟩
          · simp only [List.mem_singleton] at hx1
            exact hx2b.1 hx1
        have hnd2 : ((r0 :: rrest).erase nt.table).Nodup := hnd.erase _
        cases hjpc : nt.joinPred with
        | none =>
          rw [hjpc] at hp
          exact ih _ _ _ _ ha2 hr2 hdisj2 hnd2 hused p hp
        | some jp =>
          rw [hjpc] at hp
          refine ih _ _ _ _ ha2 hr2 hdisj2 hnd2 ?_ p hp
          intro q hq
          rcases List.mem_append.mp hq with hq | hq
          · exact hused q hq
          · simp only [List.mem_singleton] at hq
            subst hq
            obtain ⟨a, haor, ds, hds, d, hd, hpd⟩ := hjp jp hjpc
            have haS : a ∈ added := hord _ _ haor
            refine ⟨a, nt.table, ha a haS, hr _ hmemt, ?_, ds, hds, d, hd, hpd⟩
            intro hcontra
            exact hdisj a ⟨haS, hcontra ▸ hmemt⟩

/-- Reduction of the renderer on a non-empty sorted subset. -/
theorem generateJoinQueryOrd_eq {g : Graph} {aliases : AliasMap}
    {cls : Classifier} {ord : List String → List String}
    {subset : List String} {s0 : String} {rest0 : List String}
    (hsl : sortStrings subset = s0 :: rest0) :
    generateJoinQueryOrd g aliases cls ord subset =
      (let built := buildJoinTree g aliases ord rest0.length [s0] rest0
        (renderTable aliases s0) []
       let wl := whereListFor cls (s0 :: rest0) built.2
       let wc := buildWhereClause cls (s0 :: rest0) built.2
       if wc ≠ "" then
         ⟨"SELECT * FROM " ++ built.1 ++ "\nWHERE " ++ wc ++ ";", built.2, wl⟩
       else ⟨"SELECT * FROM " ++ built.1 ++ ";", built.2, wl⟩) := by
  unfold generateJoinQueryOrd
  rw [hsl]

/-- C5 counterexample: for the subset {it1, it2} of scenario 3 the
JOIN...ON clause carries the derived predicate it1.info = it2.info, which
is not among the classifier's predicates for that subset, so the set of
predicates in the rendered text differs from the classifier's set. -/
theorem c5_counterexample :
    ¬ (∀ p : String,
        (p ∈ (generateJoinQueryOrd exGraphRating [] clsRating id
            ["it1", "it2"]).used ∨
         p ∈ (generateJoinQueryOrd exGraphRating [] clsRating id
            ["it1", "it2"]).whereList) ↔
        (p ∈ (getPredicatesForSubset clsRating ["it1", "it2"]).selections ∨
         p ∈ (getPredicatesForSubset clsRating ["it1", "it2"]).joins ∨
         p ∈ (getPredicatesForSubset clsRating ["it1", "it2"]).complex)) := by
  intro h
  have h2 := (h "it1.info = it2.info").mp (Or.inl (by decide))
  revert h2
  decide

/-- C5 (amended): for every rendered multi-relation subset, the WHERE
clause is exactly the classifier's selections, the classifier's
two-relation join predicates whose text was not consumed by an ON clause,
and the classifier's complex predicates, in that order; and every ON
predicate renders a join-graph detail (possibly derived, hence possibly
outside the classifier's predicate set) between two distinct relations of
the subset. -/
theorem c5_amended (g : Graph) (aliases : AliasMap) (cls : Classifier)
    (ord : List String → List String)
    (hord : ∀ (l : List String) (x : String), x ∈ ord l → x ∈ l)
    (subset : List String) (hne : subset ≠ []) (hnd : subset.Nodup) :
    (generateJoinQueryOrd g aliases cls ord subset).whereList =
      (getPredicatesForSubset cls (sortStrings subset)).selections ++
        (getPredicatesForSubset cls (sortStrings subset)).joins.filter
          (fun j => ¬ j ∈ (generateJoinQueryOrd g aliases cls ord subset).used) ++
        (getPredicatesForSubset cls (sortStrings subset)).complex ∧
    ∀ p ∈ (generateJoinQueryOrd g aliases cls ord subset).used,
      usedFromDetails g subset p := by
  have hperm : (sortStrings subset).Perm subset :=
    List.perm_insertionSort strLERel subset
  have hndS : (sortStrings subset).Nodup := hperm.nodup_iff.mpr hnd
  cases hsl : sortStrings subset with
  | nil =>
    exfalso
    apply hne
    have h2 : (sortStrings subset).length = subset.length :=
      List.length_insertionSort _ _
    rw [hsl] at h2
    exact List.eq_nil_of_length_eq_zero (by simpa using h2.symm)
  | cons s0 rest0 =>
    rw [hsl] at hndS
    have hs0 : s0 ∈ subset := by
      apply hperm.subset
      rw [hsl]
      exact List.mem_cons_self _ _
    have hrest : ∀ x ∈ rest0, x ∈ subset := by
      intro x hx
      apply hperm.subset
      rw [hsl]
      exact List.mem_cons_of_mem _ hx
    have hbuilt := buildJoinTree_used_spec g aliases ord hord subset
      rest0.length [s0] rest0 (renderTable aliases s0) []
      (by intro x hx; simp only [List.mem_singleton] at hx; exact hx ▸ hs0)
      hrest
      (by
        intro x ⟨hx1, hx2⟩
        simp only [List.mem_singleton] at hx1
        exact (List.nodup_cons.mp hndS).1 (hx1 ▸ hx2))
      (List.nodup_cons.mp hndS).2
      (by intro p hp; cases hp)
    rw [generateJoinQueryOrd_eq hsl]
    dsimp only
    split_ifs with hw
    · exact ⟨rfl, hbuilt⟩
    · exact ⟨rfl, hbuilt⟩

/-- Witness for the amended C5 at scenario 3: the subset {it1, it2} with
the derived constant-equality edge. -/
theorem c5_amended_witness :
    (["it1", "it2"] ≠ ([] : List String) ∧ (["it1", "it2"] : List String).Nodup) ∧
    ((generateJoinQueryOrd exGraphRating [] clsRating id
        ["it1", "it2"]).whereList =
      (getPredicatesForSubset clsRating (sortStrings ["it1", "it2"])).selections ++
        (getPredicatesForSubset clsRating (sortStrings ["it1", "it2"])).joins.filter
          (fun j => ¬ j ∈ (generateJoinQueryOrd exGraphRating [] clsRating id
            ["it1", "it2"]).used) ++
        (getPredicatesForSubset clsRating (sortStrings ["it1", "it2"])).complex ∧
     ∀ p ∈ (generateJoinQueryOrd exGraphRating [] clsRating id
        ["it1", "it2"]).used,
       usedFromDetails exGraphRating ["it1", "it2"] p) :=
  ⟨⟨by decide, by decide⟩,
   c5_amended exGraphRating [] clsRating id (fun _ _ h => h)
     ["it1", "it2"] (by decide) (by decide)⟩

/-! Semantic soundness of the derivations (C3): every stored detail is a
logical consequence of the asserted join equalities and the constant
facts, over arbitrary valuations of qualified columns. -/

/-- A detail's equality holds under a valuation. -/
def detailHolds (v : QCol → String) (d : JoinDetail) : Prop :=
  v ⟨d.t1, d.t1_col⟩ = v ⟨d.t2, d.t2_col⟩

/-- A valuation satisfies the asserted equi-join conditions. -/
def satisfiesJoins (v : QCol → String) (jcs : List JoinCondition) : Prop :=
  ∀ jc ∈ jcs,
    v ⟨jc.left_table, jc.left_column⟩ = v ⟨jc.right_table, jc.right_column⟩

/-- A valuation satisfies the constant-equality facts. -/
def satisfiesFacts (v : QCol → String) (facts : List ConstantValue) : Prop :=
  ∀ f ∈ facts, v ⟨f.table, f.column⟩ = f.value

/-- Every detail of the graph holds under the valuation. -/
def Entailed (v : QCol → String) (g : Graph) : Prop :=
  ∀ d ∈ allDetails g, detailHolds v d

/-- Fold invariance helper (folds of the source loops all preserve their
invariants elementwise). -/
theorem foldl_preserve {α β : Type} (P : β → Prop) (f : β → α → β) :
    ∀ (l : List α) (b : β), P b → (∀ b a, P b → a ∈ l → P (f b a)) →
      P (List.foldl f b l) := by
  intro l
  induction l with
  | nil => intro b hb _; exact hb
  | cons x xs ih =>
    intro b hb hstep
    exact ih (f b x) (hstep b x hb (List.mem_cons_self _ _))
      (fun b2 a hb2 ha => hstep b2 a hb2 (List.mem_cons_of_mem _ ha))

theorem mem_allDetails {g : Graph} {d : JoinDetail} :
    d ∈ allDetails g ↔ ∃ e ∈ g, d ∈ e.2 := by
  unfold allDetails
  suffices h : ∀ (l : Graph) (acc : List JoinDetail),
      d ∈ l.foldl (fun acc e => acc ++ e.2) acc ↔ d ∈ acc ∨ ∃ e ∈ l, d ∈ e.2 by
    simpa using h g []
  intro l
  induction l with
  | nil => intro acc; simp
  | cons e es ih =>
    intro acc
    rw [List.foldl_cons, ih]
    simp only [List.mem_append, List.mem_cons]
    constructor
    · rintro (((h | h) | ⟨e2, he2, hd2⟩))
      · exact Or.inl h
      · exact Or.inr ⟨e, Or.inl rfl, h⟩
      · exact Or.inr ⟨e2, Or.inr he2, hd2⟩
    · rintro (h | ⟨e2, (rfl | he2), hd2⟩)
      · exact Or.inl (Or.inl h)
      · exact Or.inl (Or.inr hd2)
      · exact Or.inr ⟨e2, he2, hd2⟩

theorem mem_appendAtKey {g : Graph} {k : String} {d : JoinDetail} {e} :
    e ∈ appendAtKey g k d →
      e ∈ g ∨ ∃ ds0, ((k, ds0) ∈ g ∨ ds0 = []) ∧ e = (k, ds0 ++ [d]) := by
  induction g with
  | nil =>
    intro h
    simp only [appendAtKey, List.mem_singleton] at h
    exact Or.inr ⟨[], Or.inr rfl, h⟩
  | cons e0 rest ih =>
    obtain ⟨k0, ds⟩ := e0
    intro h
    simp only [appendAtKey] at h
    by_cases hk : k0 = k
    · rw [if_pos hk] at h
      rcases List.mem_cons.mp h with h | h
      · subst hk
        exact Or.inr ⟨ds, Or.inl (List.mem_cons_self _ _), h⟩
      · exact Or.inl (List.mem_cons_of_mem _ h)
    · rw [if_neg hk] at h
      rcases List.mem_cons.mp h with h | h
      · exact Or.inl (h ▸ List.mem_cons_self _ _)
      · rcases ih h with h | ⟨ds0, hds0, he⟩
        · exact Or.inl (List.mem_cons_of_mem _ h)
        · refine Or.inr ⟨ds0, ?_, he⟩
          rcases hds0 with h2 | h2
          · exact Or.inl (List.mem_cons_of_mem _ h2)
          · exact Or.inr h2

/-- Membership in the graph after add_join: an old detail, or the新 one in
its canonical orientation. -/
theorem mem_allDetails_addJoin {g : Graph} {t1 t2 c1 c2 : String} {o : Bool}
    {x : JoinDetail} (hx : x ∈ allDetails (addJoin g t1 t2 c1 c2 o)) :
    x ∈ allDetails g ∨
      (x.t1 = t1 ∧ x.t1_col = c1 ∧ x.t2 = t2 ∧ x.t2_col = c2) ∨
      (x.t1 = t2 ∧ x.t1_col = c2 ∧ x.t2 = t1 ∧ x.t2_col = c1) := by
  unfold addJoin at hx
  by_cases hc : c1 ≠ "" ∧ c2 ≠ ""
  case neg =>
    rw [if_neg hc] at hx
    exact Or.inl hx
  rw [if_pos hc] at hx
  obtain ⟨e, he, hxe⟩ := mem_allDetails.mp hx
  rcases mem_appendAtKey he with he2 | ⟨ds0, hds0, rfl⟩
  · exact Or.inl (mem_allDetails.mpr ⟨e, he2, hxe⟩)
  · simp only at hxe
    rcases List.mem_append.mp hxe with hxe | hxe
    · rcases hds0 with h2 | h2
      · exact Or.inl (mem_allDetails.mpr ⟨(edgeKey t1 t2, ds0), h2, hxe⟩)
      · subst h2; cases hxe
    · simp only [List.mem_singleton] at hxe
      by_cases hle : strLE t1 t2 = true
      · refine Or.inr (Or.inl ?_)
        rw [hxe]
        simp [hle]
      · have hne : t1 ≠ t2 := fun hteq => hle (hteq ▸ strLERel_refl t1)
        refine Or.inr (Or.inr ?_)
        rw [hxe]
        simp [hle, hne, Ne.symm hne]

theorem entailed_addJoin {v : QCol → String} {g : Graph}
    {t1 t2 c1 c2 : String} {o : Bool} (hg : Entailed v g)
    (heq : v ⟨t1, c1⟩ = v ⟨t2, c2⟩) :
    Entailed v (addJoin g t1 t2 c1 c2 o) := by
  intro x hx
  rcases mem_allDetails_addJoin hx with h | ⟨h1, h2, h3, h4⟩ | ⟨h1, h2, h3, h4⟩
  · exact hg x h
  · unfold detailHolds
    rw [h1, h2, h3, h4]
    exact heq
  · unfold detailHolds
    rw [h1, h2, h3, h4]
    exact heq.symm

theorem tryForm_holds {v : QCol → String} {d1 d2 : JoinDetail}
    {tj : TransitiveJoin} (h1 : detailHolds v d1) (h2 : detailHolds v d2)
    (h : tryFormTransitiveJoin d1 d2 = some tj) :
    v ⟨tj.t1, tj.t1_col⟩ = v ⟨tj.t2, tj.t2_col⟩ := by
  unfold detailHolds at h1 h2
  unfold tryFormTransitiveJoin at h
  split_ifs at h with hc1 hc2 hc3 hc4 <;>
    simp only [Option.some.injEq] at h <;> subst h
  · calc v ⟨d1.t1, d1.t1_col⟩ = v ⟨d1.t2, d1.t2_col⟩ := h1
    _ = v ⟨d2.t1, d2.t1_col⟩ := by rw [hc1.1, hc1.2]
    _ = v ⟨d2.t2, d2.t2_col⟩ := h2
  · calc v ⟨d1.t1, d1.t1_col⟩ = v ⟨d1.t2, d1.t2_col⟩ := h1
    _ = v ⟨d2.t2, d2.t2_col⟩ := by rw [hc2.1, hc2.2]
    _ = v ⟨d2.t1, d2.t1_col⟩ := h2.symm
  · calc v ⟨d1.t2, d1.t2_col⟩ = v ⟨d1.t1, d1.t1_col⟩ := h1.symm
    _ = v ⟨d2.t1, d2.t1_col⟩ := by rw [hc3.1, hc3.2]
    _ = v ⟨d2.t2, d2.t2_col⟩ := h2
  · calc v ⟨d1.t2, d1.t2_col⟩ = v ⟨d1.t1, d1.t1_col⟩ := h1.symm
    _ = v ⟨d2.t2, d2.t2_col⟩ := by rw [hc4.1, hc4.2]
    _ = v ⟨d2.t1, d2.t1_col⟩ := h2.symm

theorem closureInner_entailed {v : QCol → String} {acc : Graph × Bool}
    {d1 d2 : JoinDetail} (hacc : Entailed v acc.1) (h1 : detailHolds v d1)
    (h2 : detailHolds v d2) : Entailed v (closureInner acc d1 d2).1 := by
  unfold closureInner
  cases htf : tryFormTransitiveJoin d1 d2 with
  | none => exact hacc
  | some tj =>
    dsimp only
    split_ifs with hne hex
    · exact hacc
    · exact entailed_addJoin hacc (tryForm_holds h1 h2 htf)
    · exact hacc

theorem closurePass_entailed {v : QCol → String} {g : Graph}
    (hg : Entailed v g) : Entailed v (closurePass g).1 := by
  unfold closurePass
  refine foldl_preserve (fun acc => Entailed v acc.1) _ g (g, false) hg ?_
  intro acc e1 hacc he1
  refine foldl_preserve (fun acc => Entailed v acc.1) _ g acc hacc ?_
  intro acc2 e2 hacc2 he2
  split_ifs with hk
  · exact hacc2
  · refine foldl_preserve (fun acc => Entailed v acc.1) _ e1.2 acc2 hacc2 ?_
    intro acc3 d1 hacc3 hd1
    refine foldl_preserve (fun acc => Entailed v acc.1) _ e2.2 acc3 hacc3 ?_
    intro acc4 d2 hacc4 hd2
    exact closureInner_entailed hacc4
      (hg d1 (mem_allDetails.mpr ⟨e1, he1, hd1⟩))
      (hg d2 (mem_allDetails.mpr ⟨e2, he2, hd2⟩))

theorem closureIter_entailed {v : QCol → String} :
    ∀ (n : Nat) {g : Graph}, Entailed v g → Entailed v (closureIter n g) := by
  intro n
  induction n with
  | zero => intro g hg; exact hg
  | succ m ih =>
    intro g hg
    unfold closureIter
    dsimp only
    split_ifs with hf
    · exact ih (closurePass_entailed hg)
    · exact closurePass_entailed hg

theorem mem_assocSet {α β : Type} [DecidableEq α] {m : List (α × β)}
    {k : α} {v : β} {e : α × β} (h : e ∈ assocSet m k v) :
    e ∈ m ∨ e = (k, v) := by
  induction m with
  | nil => simpa [assocSet] using h
  | cons e0 rest ih =>
    obtain ⟨a, b⟩ := e0
    simp only [assocSet] at h
    by_cases ha : a = k
    · rw [if_pos ha] at h
      rcases List.mem_cons.mp h with h | h
      · exact Or.inr (by rw [h, ha])
      · exact Or.inl (List.mem_cons_of_mem _ h)
    · rw [if_neg ha] at h
      rcases List.mem_cons.mp h with h | h
      · exact Or.inl (h ▸ List.mem_cons_self _ _)
      · rcases ih h with h | h
        · exact Or.inl (List.mem_cons_of_mem _ h)
        · exact Or.inr h

theorem mem_groupAdd {gs : List (String × List ConstantValue)} {k : String}
    {cv : ConstantValue} {e} (h : e ∈ groupAdd gs k cv) :
    e ∈ gs ∨ (∃ grp0, assocFind? gs k = some grp0 ∧ e = (k, grp0 ++ [cv])) ∨
      e = (k, [cv]) := by
  unfold groupAdd at h
  cases hf : assocFind? gs k with
  | some grp =>
    rw [hf] at h
    rcases mem_assocSet h with h | h
    · exact Or.inl h
    · exact Or.inr (Or.inl ⟨grp, rfl, h⟩)
  | none =>
    rw [hf] at h
    rcases List.mem_append.mp h with h | h
    · exact Or.inl h
    · simp only [List.mem_singleton] at h
      exact Or.inr (Or.inr h)

/-- Every member of every group is a fact with that group's key. -/
theorem buildGroups_members (facts : List ConstantValue) :
    ∀ e ∈ buildGroups facts, ∀ f ∈ e.2, f ∈ facts ∧ factKey f = e.1 := by
  unfold buildGroups
  refine foldl_preserve
    (fun (gs : List (String × List ConstantValue)) =>
      ∀ e ∈ gs, ∀ f ∈ e.2, f ∈ facts ∧ factKey f = e.1) _ facts [] ?_ ?_
  · intro e he; cases he
  · intro gs cv hgs hcv e he f hf
    rcases mem_groupAdd he with he | ⟨grp0, hg0, rfl⟩ | rfl
    · exact hgs e he f hf
    · simp only at hf ⊢
      rcases List.mem_append.mp hf with hf | hf
      · exact hgs _ (assocFind?_mem hg0) f hf
      · simp only [List.mem_singleton] at hf
        subst hf
        exact ⟨hcv, rfl⟩
    · simp only [List.mem_singleton] at hf
      subst hf
      exact ⟨hcv, rfl⟩

theorem pairsOf_sound {grp : List ConstantValue} {x : ConstantEqualityJoin} :
    x ∈ pairsOf grp →
      ∃ f1 f2, f1 ∈ grp ∧ f2 ∈ grp ∧ x = ⟨f1.table, f2.table, f1.column⟩ := by
  induction grp with
  | nil => intro h; cases h
  | cons f fs ih =>
    intro h
    rcases List.mem_append.mp h with h | h
    · obtain ⟨f2, hf2, hx⟩ := List.mem_map.mp h
      exact ⟨f, f2, List.mem_cons_self _ _, List.mem_cons_of_mem _ hf2, hx.symm⟩
    · obtain ⟨f1, f2, h1, h2, hx⟩ := ih h
      exact ⟨f1, f2, List.mem_cons_of_mem _ h1, List.mem_cons_of_mem _ h2, hx⟩

theorem foldPairs_sound {x : ConstantEqualityJoin} :
    ∀ (groups : List (String × List ConstantValue))
      (js0 : List ConstantEqualityJoin),
      x ∈ groups.foldl (fun js e =>
        if 2 ≤ e.2.length then js ++ pairsOf e.2 else js) js0 →
      x ∈ js0 ∨ ∃ e ∈ groups, x ∈ pairsOf e.2 := by
  intro groups
  induction groups with
  | nil => intro js0 h; exact Or.inl h
  | cons e es ih =>
    intro js0 h
    simp only [List.foldl_cons] at h
    rcases ih _ h with h2 | ⟨e2, he2, hx⟩
    · split_ifs at h2 with hl
      · rcases List.mem_append.mp h2 with h3 | h3
        · exact Or.inl h3
        · exact Or.inr ⟨e, List.mem_cons_self _ _, h3⟩
      · exact Or.inl h2
    · exact Or.inr ⟨e2, List.mem_cons_of_mem _ he2, hx⟩

/-- Every emitted constant-equality join comes from two stored facts with
equal keys. -/
theorem detectFromFacts_sound {facts : List ConstantValue}
    {cj : ConstantEqualityJoin} (h : cj ∈ detectFromFacts facts) :
    ∃ f1 f2, f1 ∈ facts ∧ f2 ∈ facts ∧ factKey f1 = factKey f2 ∧
      cj = ⟨f1.table, f2.table, f1.column⟩ := by
  unfold detectFromFacts at h
  rcases foldPairs_sound _ _ h with h2 | ⟨e, he, hx⟩
  · cases h2
  · obtain ⟨f1, f2, h1, h2, hcj⟩ := pairsOf_sound hx
    obtain ⟨hm1, hk1⟩ := buildGroups_members facts e he f1 h1
    obtain ⟨hm2, hk2⟩ := buildGroups_members facts e he f2 h2
    exact ⟨f1, f2, hm1, hm2, by rw [hk1, hk2], hcj⟩

/-- C3: every join detail present after the build phase — in particular
every derived one — expresses a column equality that is a logical
consequence of the asserted equi-join equalities together with the
constant-equality facts: any valuation of qualified columns satisfying
the asserted equalities and the facts satisfies every stored detail.  In
particular, from A.x = B.y and B.z = C.w with y distinct from z no detail
between A and C is derived. -/
theorem c3_closure_soundness :
    (∀ (jcs : List JoinCondition) (facts : List ConstantValue)
        (v : QCol → String),
        (∀ f ∈ facts, ':' ∉ f.column.data) →
        satisfiesJoins v jcs → satisfiesFacts v facts →
        ∀ d ∈ allDetails (buildJoinGraph jcs facts), detailHolds v d) ∧
    lookupEdge (buildJoinGraph [⟨"A", "x", "B", "y"⟩, ⟨"B", "z", "C", "w"⟩] [])
      (edgeKey "A" "C") = none := by
  constructor
  · intro jcs facts v hcol hj hf
    have h0 : Entailed v [] := by intro d hd; cases hd
    have h1 : Entailed v (ingestJoins [] jcs) := by
      unfold ingestJoins
      refine foldl_preserve (Entailed v) _ jcs [] h0 ?_
      intro g jc hg hjc
      exact entailed_addJoin hg (hj jc hjc)
    have h2 : Entailed v
        (ingestConstJoins (ingestJoins [] jcs) (detectFromFacts facts)) := by
      unfold ingestConstJoins
      refine foldl_preserve (Entailed v) _ (detectFromFacts facts) _ h1 ?_
      intro g cj hg hcj
      obtain ⟨f1, f2, hm1, hm2, hkey, rfl⟩ := detectFromFacts_sound hcj
      obtain ⟨hc, hv⟩ := factKey_inj (hcol f1 hm1) (hcol f2 hm2) hkey
      refine entailed_addJoin hg ?_
      simp only
      rw [hf f1 hm1]
      rw [show (⟨f2.table, f1.column⟩ : QCol) = ⟨f2.table, f2.column⟩ by rw [hc]]
      rw [hf f2 hm2, hv]
    exact closureIter_entailed 10 h2
  · decide

/-- Witness for C3: two asserted chained joins sharing B.y plus two
constant facts with value 7, under the valuation sending everything to 7,
which satisfies the asserted equalities and the facts; the theorem yields
entailment of all details of the built graph. -/
theorem c3_closure_soundness_witness :
    ((∀ f ∈ ([⟨"A", "x", "7"⟩, ⟨"B", "x", "7"⟩] : List ConstantValue),
        ':' ∉ f.column.data) ∧
     satisfiesJoins (fun _ => "7") [⟨"A", "x", "B", "y"⟩, ⟨"B", "y", "C", "z"⟩] ∧
     satisfiesFacts (fun _ => "7") [⟨"A", "x", "7"⟩, ⟨"B", "x", "7"⟩]) ∧
    ∀ d ∈ allDetails (buildJoinGraph
        [⟨"A", "x", "B", "y"⟩, ⟨"B", "y", "C", "z"⟩]
        [⟨"A", "x", "7"⟩, ⟨"B", "x", "7"⟩]),
      detailHolds (fun _ => "7") d :=
  ⟨⟨by decide, fun jc _ => rfl,
    by unfold satisfiesFacts; decide⟩,
   c3_closure_soundness.1 [⟨"A", "x", "B", "y"⟩, ⟨"B", "y", "C", "z"⟩]
     [⟨"A", "x", "7"⟩, ⟨"B", "x", "7"⟩] (fun _ => "7")
     (by decide) (fun jc _ => rfl)
     (by unfold satisfiesFacts; decide)⟩

/-! The enumerator's witnessed decompositions (C4). -/

/-- The witnessing property of a multi-relation plan relative to the
plans emitted strictly before it. -/
def planWitnessed (ecs : List (List QCol)) (earlier : List EnumerationPlan)
    (p : EnumerationPlan) : Prop :=
  ∃ l r, p.left = some l ∧ p.right = some r ∧
    (∃ q ∈ earlier, q.subset = l) ∧ (∃ q ∈ earlier, q.subset = r) ∧
    (∀ x, ¬ (x ∈ l ∧ x ∈ r)) ∧ (∀ x, x ∈ p.subset ↔ (x ∈ l ∨ x ∈ r)) ∧
    canJoin ecs l r = true

/-- The enumerator's loop invariant: DP keys name earlier plans, plan
subsets are sorted, and every stored multi-relation plan is witnessed by
the plans before it. -/
def GoodState (ecs : List (List QCol)) (st : EnumState) : Prop :=
  (∀ k ∈ st.dpTable, ∃ q ∈ st.allPlans, canonicalKey q.subset = k) ∧
  (∀ q ∈ st.allPlans, q.subset.Sorted strLERel) ∧
  (∀ pre p post, st.allPlans = pre ++ p :: post → 2 ≤ p.subset.length →
    planWitnessed ecs pre p)

theorem canonicalKey_sorted {l : List String} (h : l.Sorted strLERel) :
    canonicalKey l = l :=
  List.Sorted.insertionSort_eq h

theorem combos_sublist : ∀ (k : Nat) (l : List String) (c : List String),
    c ∈ combos k l → c.Sublist l := by
  intro k l
  induction l generalizing k with
  | nil =>
    intro c hc
    cases k with
    | zero =>
      simp only [combos, List.mem_singleton] at hc
      subst hc
      exact List.Sublist.refl _
    | succ m => cases hc
  | cons x xs ih =>
    intro c hc
    cases k with
    | zero =>
      simp only [combos, List.mem_singleton] at hc
      subst hc
      exact List.nil_sublist _
    | succ m =>
      simp only [combos, List.mem_append] at hc
      rcases hc with hc | hc
      · obtain ⟨c2, hc2, rfl⟩ := List.mem_map.mp hc
        exact List.Sublist.cons₂ _ (ih m c2 hc2)
      · exact List.Sublist.cons _ (ih (m + 1) c hc)

theorem combos_length : ∀ (k : Nat) (l : List String) (c : List String),
    c ∈ combos k l → c.length = k := by
  intro k l
  induction l generalizing k with
  | nil =>
    intro c hc
    cases k with
    | zero =>
      simp only [combos, List.mem_singleton] at hc
      subst hc
      rfl
    | succ m => cases hc
  | cons x xs ih =>
    intro c hc
    cases k with
    | zero =>
      simp only [combos, List.mem_singleton] at hc
      subst hc
      rfl
    | succ m =>
      simp only [combos, List.mem_append] at hc
      rcases hc with hc | hc
      · obtain ⟨c2, hc2, rfl⟩ := List.mem_map.mp hc
        simp [ih m c2 hc2]
      · exact ih (m + 1) c hc

theorem append_singleton_cases {α : Type} {pre post plansL : List α}
    {p newp : α} (h : pre ++ p :: post = plansL ++ [newp]) :
    (pre = plansL ∧ p = newp ∧ post = []) ∨
    (∃ post2, post = post2 ++ [newp] ∧ plansL = pre ++ p :: post2) := by
  rcases List.eq_nil_or_concat post with rfl | ⟨post2, lastel, rfl⟩
  · have h2 := List.append_inj' h (by simp)
    obtain ⟨h3, h4⟩ := h2
    simp only [List.cons.injEq] at h4
    exact Or.inl ⟨h3, h4.1, rfl⟩
  · simp only [List.concat_eq_append] at h ⊢
    rw [show p :: (post2 ++ [lastel]) = (p :: post2) ++ [lastel] by simp,
      ← List.append_assoc] at h
    have h2 := List.append_inj' h (by simp)
    obtain ⟨h3, h4⟩ := h2
    simp only [List.cons.injEq] at h4
    exact Or.inr ⟨post2, by rw [h4.1], h3.symm⟩

theorem findValidDecomposition_spec {ecs : List (List QCol)}
    {dp : List (List String)} {subset : List String} {d : Decomposition}
    (h : findValidDecomposition ecs dp subset = some d) :
    (∃ ls, d.left ∈ combos ls (sortStrings subset)) ∧
    d.right = subset.filter (fun x => ¬ x ∈ d.left) ∧
    canonicalKey d.left ∈ dp ∧ canonicalKey d.right ∈ dp ∧
    canJoin ecs d.left d.right = true := by
  unfold findValidDecomposition at h
  obtain ⟨ls, hls, h2⟩ := List.exists_of_findSome?_eq_some h
  obtain ⟨l, hl, h3⟩ := List.exists_of_findSome?_eq_some h2
  dsimp only at h3
  split_ifs at h3 with hcond
  simp only [Option.some.injEq] at h3
  subst h3
  exact ⟨⟨ls, hl⟩, rfl, hcond.1, hcond.2.1, hcond.2.2⟩

theorem addSubset_good {ecs : List (List QCol)} {st : EnumState}
    {subset : List String} {lo ro : Option (List String)}
    (hst : GoodState ecs st) (hsor : subset.Sorted strLERel)
    (hwit : 2 ≤ subset.length →
      planWitnessed ecs st.allPlans ⟨subset, lo, ro, ""⟩) :
    GoodState ecs (addSubset st subset lo ro) := by
  obtain ⟨hkeys, hcanon, hplans⟩ := hst
  refine ⟨?_, ?_, ?_⟩
  · intro k hk
    rcases List.mem_append.mp hk with hk | hk
    · obtain ⟨q, hq, hqk⟩ := hkeys k hk
      exact ⟨q, List.mem_append_left _ hq, hqk⟩
    · simp only [List.mem_singleton] at hk
      exact ⟨⟨subset, lo, ro, ""⟩,
        List.mem_append_right _ (List.mem_singleton.mpr rfl), hk.symm⟩
  · intro q hq
    rcases List.mem_append.mp hq with hq | hq
    · exact hcanon q hq
    · simp only [List.mem_singleton] at hq
      subst hq
      exact hsor
  · intro pre p post heq hlen
    have heq2 : pre ++ p :: post =
        st.allPlans ++ [⟨subset, lo, ro, ""⟩] := by
      rw [← heq]; rfl
    rcases append_singleton_cases heq2 with ⟨rfl, rfl, rfl⟩ | ⟨post2, rfl, hpl⟩
    · exact hwit hlen
    · exact hplans pre p post2 hpl hlen

theorem enumStep_good {ecs : List (List QCol)} {level : Nat} {st : EnumState}
    {cand : List String} (hst : GoodState ecs st)
    (hsor : cand.Sorted strLERel) (hlen : cand.length = level) :
    GoodState ecs (enumStep ecs level st cand) := by
  unfold enumStep
  by_cases hconn : ¬ isConnected ecs cand = true
  case pos =>
    rw [if_pos hconn]
    exact hst
  rw [if_neg hconn]
  by_cases h1 : level = 1
  case pos =>
    rw [if_pos h1]
    refine addSubset_good hst hsor ?_
    intro h2
    omega
  rw [if_neg h1]
  cases hfd : findValidDecomposition ecs st.dpTable cand with
  | none => exact hst
  | some d =>
      obtain ⟨⟨ls, hls⟩, hr, hld, hrd, hcj⟩ := findValidDecomposition_spec hfd
      have hcand_sorted : sortStrings cand = cand := canonicalKey_sorted hsor
      have hlsub : d.left.Sublist cand := by
        have := combos_sublist ls (sortStrings cand) d.left hls
        rwa [hcand_sorted] at this
      have hlsor : d.left.Sorted strLERel := List.Pairwise.sublist hlsub hsor
      have hrsor : d.right.Sorted strLERel := by
        rw [hr]
        exact List.Pairwise.sublist (List.filter_sublist _) hsor
      refine addSubset_good hst hsor ?_
      intro _
      obtain ⟨ql, hql, hqlk⟩ := hst.1 _ hld
      obtain ⟨qr, hqr, hqrk⟩ := hst.1 _ hrd
      have hqleq : ql.subset = d.left := by
        have h2 : canonicalKey ql.subset = canonicalKey d.left := hqlk
        rwa [canonicalKey_sorted (hst.2.1 ql hql),
          canonicalKey_sorted hlsor] at h2
      have hqreq : qr.subset = d.right := by
        have h2 : canonicalKey qr.subset = canonicalKey d.right := hqrk
        rwa [canonicalKey_sorted (hst.2.1 qr hqr),
          canonicalKey_sorted hrsor] at h2
      refine ⟨d.left, d.right, rfl, rfl, ⟨ql, hql, hqleq⟩, ⟨qr, hqr, hqreq⟩,
        ?_, ?_, hcj⟩
      · intro x ⟨hxl, hxr⟩
        rw [hr] at hxr
        have h3 := List.of_mem_filter hxr
        simp at h3
        exact h3 hxl
      · intro x
        constructor
        · intro hx
          by_cases hxl : x ∈ d.left
          · exact Or.inl hxl
          · refine Or.inr ?_
            rw [hr]
            refine List.mem_filter.mpr ⟨hx, ?_⟩
            simpa using hxl
        · intro hx
          rcases hx with hx | hx
          · exact hlsub.subset hx
          · rw [hr] at hx
            exact List.mem_of_mem_filter hx

theorem enumerateSubsets_good (ecs : List (List QCol)) (tables : List String)
    (K : Nat) :
    GoodState ecs
      ((List.range' 1 (min K (sortStrings tables).length)).foldl
        (fun (acc : EnumState × List (Nat × Nat)) level =>
          let st2 := enumLevel ecs level (sortStrings tables) acc.1
          (st2, acc.2 ++ [(level, st2.allPlans.length - acc.1.allPlans.length)]))
        (⟨[], []⟩, [])).1 := by
  have htS : (sortStrings tables).Sorted strLERel :=
    List.sorted_insertionSort strLERel tables
  refine foldl_preserve
    (fun (acc : EnumState × List (Nat × Nat)) => GoodState ecs acc.1) _
    (List.range' 1 (min K (sortStrings tables).length)) (⟨[], []⟩, []) ?_ ?_
  · refine ⟨?_, ?_, ?_⟩
    · intro k hk; cases hk
    · intro q hq; cases hq
    · intro pre p post heq _
      exact absurd heq (by simp)
  · intro acc level hacc _
    dsimp only
    unfold enumLevel
    refine foldl_preserve (GoodState ecs) _
      (combos level (sortStrings tables)) acc.1 hacc ?_
    intro st cand hstg hcand
    exact enumStep_good hstg
      (List.Pairwise.sublist (combos_sublist _ _ _ hcand) htS)
      (combos_length _ _ _ hcand)

/-- C4: in the emitted plan sequence, every plan whose subset has two or
more relations carries a decomposition (left, right) such that both
appear as subsets of plans strictly earlier in the sequence, left and
right are disjoint, their union equals the subset, and can_join holds on
the join graph. -/
theorem c4_witnessed_decomposition (ecs : List (List QCol))
    (tables : List String) (K : Nat)
    (pre : List EnumerationPlan) (p : EnumerationPlan)
    (post : List EnumerationPlan)
    (heq : (enumerateSubsets ecs tables K).allPlans = pre ++ p :: post)
    (hlen : 2 ≤ p.subset.length) :
    planWitnessed ecs pre p :=
  (enumerateSubsets_good ecs tables K).2.2 pre p post heq hlen

/-- Witness for C4 at the two-relation query of scenario 1: the plan for
{A, B} is decomposed into the earlier singletons {A} and {B}. -/
theorem c4_witnessed_decomposition_witness :
    ((enumerateSubsets (buildEquivalenceClasses exGraphAB) ["A", "B"]
        20).allPlans =
      [⟨["A"], none, none, ""⟩, ⟨["B"], none, none, ""⟩] ++
        (⟨["A", "B"], some ["A"], some ["B"], ""⟩ : EnumerationPlan) :: [] ∧
     2 ≤ (["A", "B"] : List String).length) ∧
    planWitnessed (buildEquivalenceClasses exGraphAB)
      [⟨["A"], none, none, ""⟩, ⟨["B"], none, none, ""⟩]
      ⟨["A", "B"], some ["A"], some ["B"], ""⟩ :=
  ⟨⟨by decide, by decide⟩,
   c4_witnessed_decomposition (buildEquivalenceClasses exGraphAB) ["A", "B"]
     20 [⟨["A"], none, none, ""⟩, ⟨["B"], none, none, ""⟩]
     ⟨["A", "B"], some ["A"], some ["B"], ""⟩ [] (by decide) (by decide)⟩

/-! Saturated graphs and renderer totality (C6). -/

/-- The unordered endpoint columns of a detail. -/
def detailPair (d : JoinDetail) (p q : QCol) : Prop :=
  (p = ⟨d.t1, d.t1_col⟩ ∧ q = ⟨d.t2, d.t2_col⟩) ∨
  (p = ⟨d.t2, d.t2_col⟩ ∧ q = ⟨d.t1, d.t1_col⟩)

/-- Two qualified columns linked by some stored detail. -/
def colAdj (g : Graph) (p q : QCol) : Prop :=
  ∃ d ∈ allDetails g, detailPair d p q

/-- Column paths of a given length in the detail graph. -/
inductive ColPath (g : Graph) : Nat → QCol → QCol → Prop where
  | refl (p : QCol) : ColPath g 0 p p
  | step {n : Nat} {p r q : QCol} : ColPath g n p r → colAdj g r q →
      ColPath g (n + 1) p q

/-- Storage well-formedness: every detail sits under its canonical edge
key, keys are unique, and alias names are free of the `|` delimiter. -/
def WfGraph (g : Graph) : Prop :=
  (∀ e ∈ g, ∀ d ∈ e.2, e.1 = edgeKey d.t1 d.t2) ∧
  (g.map Prod.fst).Nodup ∧
  (∀ d ∈ allDetails g, '|' ∉ d.t1.data ∧ '|' ∉ d.t2.data)

instance (g : Graph) : Decidable (WfGraph g) := by
  unfold WfGraph
  infer_instance

/-- One composition obligation of the closure at a detail pair. -/
def closedAt (g : Graph) (d1 d2 : JoinDetail) : Prop :=
  ∀ tj ∈ tryFormTransitiveJoin d1 d2, tj.t1 ≠ tj.t2 → joinExists g tj = true

instance (g : Graph) (d1 d2 : JoinDetail) : Decidable (closedAt g d1 d2) := by
  unfold closedAt
  infer_instance

/-- A graph at the closure's fixed point: no composition of details from
two distinct edges adds anything (exactly the state in which
compute_transitive_closure's pass finds nothing new). -/
def ClosedGraph (g : Graph) : Prop :=
  ∀ e1 ∈ g, ∀ e2 ∈ g, e1.1 ≠ e2.1 →
    ∀ d1 ∈ e1.2, ∀ d2 ∈ e2.2, closedAt g d1 d2

instance (g : Graph) : Decidable (ClosedGraph g) := by
  unfold ClosedGraph
  infer_instance

/-- The chain graph of scenario 2: A.x = B.y and B.y = C.z, whose closure
derives the direct A–C edge. -/
def exGraphChain : Graph :=
  buildJoinGraph [⟨"A", "x", "B", "y"⟩, ⟨"B", "y", "C", "z"⟩] []

theorem edgeKey_comm (a b : String) : edgeKey a b = edgeKey b a := by
  unfold edgeKey
  by_cases h1 : strLE a b = true <;> by_cases h2 : strLE b a = true
  · have h3 := String.ext (charListLE_antisymm h1 h2)
    subst h3
    simp
  · simp [h1, h2]
  · simp [h1, h2]
  · rcases charListLE_total a.data b.data with h | h
    · exact absurd h h1
    · exact absurd h h2

theorem pipe_key_split {x1 y1 x2 y2 : String} (hx1 : '|' ∉ x1.data)
    (hx2 : '|' ∉ x2.data)
    (h : x1 ++ "|||" ++ y1 = x2 ++ "|||" ++ y2) : x1 = x2 ∧ y1 = y2 := by
  have hd := congrArg String.data h
  simp only [String.data_append, List.append_assoc] at hd
  simp only [List.cons_append, List.nil_append] at hd
  obtain ⟨hx, hy⟩ := delim_split hx1 hx2 hd
  simp only [List.cons.injEq] at hy
  exact ⟨String.ext hx, String.ext hy.2.2⟩

theorem edgeKey_inj {a b c d : String}
    (ha : '|' ∉ a.data) (hb : '|' ∉ b.data) (hc : '|' ∉ c.data)
    (hd : '|' ∉ d.data) (h : edgeKey a b = edgeKey c d) :
    (a = c ∧ b = d) ∨ (a = d ∧ b = c) := by
  unfold edgeKey at h
  by_cases h1 : strLE a b = true <;> by_cases h2 : strLE c d = true <;>
    simp only [h1, h2, if_true, if_false, Bool.false_eq_true] at h
  · exact Or.inl (pipe_key_split ha hc h)
  · exact Or.inr (pipe_key_split ha hd h)
  · exact Or.inr ⟨(pipe_key_split hb hc h).2, (pipe_key_split hb hc h).1⟩
  · exact Or.inl ⟨(pipe_key_split hb hd h).2, (pipe_key_split hb hd h).1⟩

theorem lookupEdge_mem {g : Graph} {k : String} {ds : List JoinDetail}
    (h : lookupEdge g k = some ds) : (k, ds) ∈ g := by
  induction g with
  | nil => cases h
  | cons e rest ih =>
    obtain ⟨k0, ds0⟩ := e
    simp only [lookupEdge] at h
    by_cases hk : k0 = k
    · rw [if_pos hk] at h
      simp only [Option.some.injEq] at h
      subst hk
      subst h
      exact List.mem_cons_self _ _
    · rw [if_neg hk] at h
      exact List.mem_cons_of_mem _ (ih h)

theorem lookupEdge_of_mem {g : Graph} {k : String} {ds : List JoinDetail}
    (hnd : (g.map Prod.fst).Nodup) (h : (k, ds) ∈ g) :
    lookupEdge g k = some ds := by
  induction g with
  | nil => cases h
  | cons e rest ih =>
    obtain ⟨k0, ds0⟩ := e
    simp only [List.map_cons, List.nodup_cons] at hnd
    rcases List.mem_cons.mp h with h2 | h2
    · simp only [Prod.mk.injEq] at h2
      simp [lookupEdge, h2.1, h2.2]
    · have hk : k0 ≠ k := by
        intro hk0
        subst hk0
        exact hnd.1 (List.mem_map.mpr ⟨(k0, ds), h2, rfl⟩)
      simp only [lookupEdge, if_neg hk]
      exact ih hnd.2 h2

theorem joinExists_spec {g : Graph} {tj : TransitiveJoin}
    (h : joinExists g tj = true) :
    ∃ ds, lookupEdge g (edgeKey tj.t1 tj.t2) = some ds ∧
      ∃ d ∈ ds, detailPair d ⟨tj.t1, tj.t1_col⟩ ⟨tj.t2, tj.t2_col⟩ := by
  unfold joinExists at h
  cases hlk : lookupEdge g (edgeKey tj.t1 tj.t2) with
  | none => rw [hlk] at h; cases h
  | some ds =>
    rw [hlk] at h
    obtain ⟨d, hd, hcond⟩ := List.any_eq_true.mp h
    simp only [decide_eq_true_eq] at hcond
    refine ⟨ds, rfl, d, hd, ?_⟩
    rcases hcond with ⟨e1, e2, e3, e4⟩ | ⟨e1, e2, e3, e4⟩
    · exact Or.inl ⟨by rw [e1, e2], by rw [e3, e4]⟩
    · exact Or.inr ⟨by rw [e3, e4], by rw [e1, e2]⟩

theorem colAdj_symm {g : Graph} {p q : QCol} (h : colAdj g p q) :
    colAdj g q p := by
  obtain ⟨d, hd, hp⟩ := h
  exact ⟨d, hd, hp.symm.imp (fun ⟨a, b⟩ => ⟨b, a⟩) (fun ⟨a, b⟩ => ⟨b, a⟩)⟩

/-- The unordered endpoint columns of a transitive-join candidate. -/
def tjPair (tj : TransitiveJoin) (p q : QCol) : Prop :=
  (p = ⟨tj.t1, tj.t1_col⟩ ∧ q = ⟨tj.t2, tj.t2_col⟩) ∨
  (p = ⟨tj.t2, tj.t2_col⟩ ∧ q = ⟨tj.t1, tj.t1_col⟩)

/-- Two details sharing an endpoint column, with non-degenerate other
endpoints in distinct relations, always compose: the first matching case
of _try_form_transitive_join yields exactly the outer column pair. -/
theorem tryForm_shared {e f : JoinDetail} {s m q : QCol}
    (he : detailPair e s m) (hf : detailPair f m q)
    (hsm : s ≠ m) (hmq : m ≠ q) (hsq : s.rel ≠ q.rel) :
    ∃ tj, tryFormTransitiveJoin e f = some tj ∧ tj.t1 ≠ tj.t2 ∧
      tjPair tj s q := by
  rcases he with ⟨hs, hm⟩ | ⟨hs, hm⟩ <;> rcases hf with ⟨hm2, hq⟩ | ⟨hm2, hq⟩
  · have key := hm.symm.trans hm2
    simp only [QCol.mk.injEq] at key
    have hne : e.t1 ≠ f.t2 := by simpa [hs, hq] using hsq
    refine ⟨⟨e.t1, e.t1_col, f.t2, f.t2_col⟩, ?_, hne, Or.inl ⟨hs, hq⟩⟩
    unfold tryFormTransitiveJoin
    rw [if_pos key]
  · have key := hm.symm.trans hm2
    simp only [QCol.mk.injEq] at key
    have hn1 : ¬ (e.t2 = f.t1 ∧ e.t2_col = f.t1_col) := by
      intro ⟨u1, u2⟩
      apply hmq
      rw [hm, hq, u1, u2]
    have hne : e.t1 ≠ f.t1 := by simpa [hs, hq] using hsq
    refine ⟨⟨e.t1, e.t1_col, f.t1, f.t1_col⟩, ?_, hne, Or.inl ⟨hs, hq⟩⟩
    unfold tryFormTransitiveJoin
    rw [if_neg hn1, if_pos key]
  · have key := hm.symm.trans hm2
    simp only [QCol.mk.injEq] at key
    have hn1 : ¬ (e.t2 = f.t1 ∧ e.t2_col = f.t1_col) := by
      intro ⟨u1, u2⟩
      apply hsm
      rw [hs, hm2, u1, u2]
    have hn2 : ¬ (e.t2 = f.t2 ∧ e.t2_col = f.t2_col) := by
      intro ⟨u1, u2⟩
      apply hsq
      rw [hs, hq, u1, u2]
    have hne : e.t2 ≠ f.t2 := by simpa [hs, hq] using hsq
    refine ⟨⟨e.t2, e.t2_col, f.t2, f.t2_col⟩, ?_, hne, Or.inl ⟨hs, hq⟩⟩
    unfold tryFormTransitiveJoin
    rw [if_neg hn1, if_neg hn2, if_pos key]
  · have key := hm.symm.trans hm2
    simp only [QCol.mk.injEq] at key
    have hn1 : ¬ (e.t2 = f.t1 ∧ e.t2_col = f.t1_col) := by
      intro ⟨u1, u2⟩
      apply hsq
      rw [hs, hq, u1, u2]
    have hn2 : ¬ (e.t2 = f.t2 ∧ e.t2_col = f.t2_col) := by
      intro ⟨u1, u2⟩
      apply hsm
      rw [hs, hm2, u1, u2]
    have hn3 : ¬ (e.t1 = f.t1 ∧ e.t1_col = f.t1_col) := by
      intro ⟨u1, u2⟩
      apply hmq
      rw [hm, hq, u1, u2]
    have hne : e.t2 ≠ f.t1 := by simpa [hs, hq] using hsq
    refine ⟨⟨e.t2, e.t2_col, f.t1, f.t1_col⟩, ?_, hne, Or.inl ⟨hs, hq⟩⟩
    unfold tryFormTransitiveJoin
    rw [if_neg hn1, if_neg hn2, if_neg hn3, if_pos key]

theorem detailPair_symm {d : JoinDetail} {p q : QCol}
    (h : detailPair d p q) : detailPair d q p :=
  h.symm.imp (fun ⟨a, b⟩ => ⟨b, a⟩) (fun ⟨a, b⟩ => ⟨b, a⟩)

theorem detailPair_edgeKey {d : JoinDetail} {p q : QCol}
    (h : detailPair d p q) :
    edgeKey d.t1 d.t2 = edgeKey p.rel q.rel := by
  rcases h with ⟨h1, h2⟩ | ⟨h1, h2⟩
  · rw [h1, h2]
  · rw [h1, h2, edgeKey_comm]

theorem detailPair_pipe {d : JoinDetail} {p q : QCol}
    (h : detailPair d p q) (hw : '|' ∉ d.t1.data ∧ '|' ∉ d.t2.data) :
    '|' ∉ p.rel.data ∧ '|' ∉ q.rel.data := by
  rcases h with ⟨h1, h2⟩ | ⟨h1, h2⟩
  · rw [h1, h2]
    exact hw
  · rw [h1, h2]
    exact ⟨hw.2, hw.1⟩

/-- A direct adjacency yields a non-empty edge entry under the canonical
key of the two relations. -/
theorem colAdj_lookup {g : Graph} (hwf : WfGraph g) {p q : QCol}
    (h : colAdj g p q) :
    ∃ ds, lookupEdge g (edgeKey p.rel q.rel) = some ds ∧ ∃ d, d ∈ ds := by
  obtain ⟨d, hd, hp⟩ := h
  obtain ⟨e, he, hde⟩ := mem_allDetails.mp hd
  have hkey := hwf.1 e he d hde
  have hek : edgeKey p.rel q.rel = e.1 := by
    rw [hkey]
    exact (detailPair_edgeKey hp).symm
  rw [hek]
  exact ⟨e.2, lookupEdge_of_mem hwf.2.1 he, d, hde⟩

/-- Saturation: on a well-formed graph at the closure's fixed point, any
column path between columns of two distinct relations yields a direct
(non-empty) edge between those relations. -/
theorem path_edge {g : Graph} (hwf : WfGraph g) (hcl : ClosedGraph g) :
    ∀ (n : Nat) (q p : QCol), ColPath g n p q → p.rel ≠ q.rel →
      ∃ ds, lookupEdge g (edgeKey p.rel q.rel) = some ds ∧ ∃ d, d ∈ ds := by
  intro n
  induction n using Nat.strong_induction_on with
  | _ n ih =>
    intro q p hpath hrel
    cases hpath with
    | refl => exact absurd rfl hrel
    | step hp hadj =>
      rename_i n0 r
      by_cases hrq : r = q
      · subst hrq
        exact ih n0 (by omega) r p hp hrel
      by_cases hrelrq : r.rel = q.rel
      · have h2 := ih n0 (by omega) r p hp (by rw [hrelrq]; exact hrel)
        rwa [hrelrq] at h2
      by_cases hrelrp : r.rel = p.rel
      · have h2 := colAdj_lookup hwf hadj
        rwa [hrelrp] at h2
      cases hp with
      | refl => exact absurd rfl hrelrp
      | step hp2 hadj2 =>
        rename_i n1 s
        by_cases hsr : s = r
        · subst hsr
          exact ih (n1 + 1) (by omega) q p (ColPath.step hp2 hadj) hrel
        by_cases hsq : s.rel = q.rel
        · have h2 := ih n1 (by omega) s p hp2 (by rw [hsq]; exact hrel)
          rwa [hsq] at h2
        obtain ⟨e, heD, heP⟩ := hadj2
        obtain ⟨f, hfD, hfP⟩ := hadj
        obtain ⟨tj, htf, htne, htp⟩ := tryForm_shared heP hfP hsr hrq hsq
        obtain ⟨ee, heE, heIn⟩ := mem_allDetails.mp heD
        obtain ⟨fe, hfE, hfIn⟩ := mem_allDetails.mp hfD
        have hkeyE := hwf.1 ee heE e heIn
        have hkeyF := hwf.1 fe hfE f hfIn
        have hpipeE := detailPair_pipe heP (hwf.2.2 e heD)
        have hpipeF := detailPair_pipe hfP (hwf.2.2 f hfD)
        have hkdiff : ee.1 ≠ fe.1 := by
          intro hkeq
          rw [hkeyE, hkeyF] at hkeq
          rw [detailPair_edgeKey heP, detailPair_edgeKey hfP] at hkeq
          rcases edgeKey_inj hpipeE.1 hpipeE.2 hpipeF.1 hpipeF.2 hkeq with
            ⟨_, h2⟩ | ⟨h2, _⟩
          · exact hrelrq h2
          · exact hsq h2
        have hje := hcl ee heE fe hfE hkdiff e heIn f hfIn tj
          (Option.mem_def.mpr htf) htne
        obtain ⟨ds2, hlk2, d3, hd3, hd3P⟩ := joinExists_spec hje
        have hadj3 : colAdj g s q := by
          refine ⟨d3, mem_allDetails.mpr
            ⟨(edgeKey tj.t1 tj.t2, ds2), lookupEdge_mem hlk2, hd3⟩, ?_⟩
          rcases htp with ⟨hts, htq⟩ | ⟨hts, htq⟩
          · rw [hts, htq]
            exact hd3P
          · rw [hts, htq]
            exact detailPair_symm hd3P
        exact ih (n1 + 1) (by omega) q p (ColPath.step hp2 hadj3) hrel

/-- Connectivity of qualified columns in the detail graph. -/
def Conn (g : Graph) : QCol → QCol → Prop :=
  Relation.ReflTransGen (colAdj g)

theorem Conn_symm {g : Graph} : Symmetric (Conn g) :=
  Relation.ReflTransGen.symmetric fun _ _ h => colAdj_symm h

/-- The union-find invariant: every stored parent link connects two
columns of the same detail component. -/
def UFInv (g : Graph) (st : UFState) : Prop :=
  ∀ pr ∈ st.parent, Conn g pr.1 pr.2

theorem ufFind_sound {g : Graph} :
    ∀ (fuel : Nat) (st : UFState) (x : QCol), UFInv g st →
      UFInv g (ufFind fuel st x).2 ∧ Conn g x (ufFind fuel st x).1 := by
  intro fuel
  induction fuel with
  | zero =>
    intro st x hst
    exact ⟨hst, Relation.ReflTransGen.refl⟩
  | succ m ih =>
    intro st x hst
    unfold ufFind
    cases hfx : assocFind? st.parent x with
    | none =>
      dsimp only
      refine ⟨?_, Relation.ReflTransGen.refl⟩
      intro pr hpr
      rcases mem_assocSet hpr with h | h
      · exact hst pr h
      · rw [h]
        exact Relation.ReflTransGen.refl
    | some p =>
      dsimp only
      by_cases hpx : p = x
      · rw [if_pos hpx]
        exact ⟨hst, Relation.ReflTransGen.refl⟩
      · rw [if_neg hpx]
        obtain ⟨ih1, ih2⟩ := ih st p hst
        have hxp : Conn g x p := hst (x, p) (assocFind?_mem hfx)
        refine ⟨?_, Relation.ReflTransGen.trans hxp ih2⟩
        intro pr hpr
        dsimp only at hpr
        rcases mem_assocSet hpr with h | h
        · exact ih1 pr h
        · rw [h]
          exact Relation.ReflTransGen.trans hxp ih2

theorem ufUnion_sound {g : Graph} {st : UFState} {x y : QCol}
    (hst : UFInv g st) (hxy : Conn g x y) : UFInv g (ufUnion st x y) := by
  unfold ufUnion
  obtain ⟨h1, c1⟩ := ufFind_sound (ufFuel st) st x hst
  obtain ⟨h2, c2⟩ := ufFind_sound
    (ufFuel (ufFind (ufFuel st) st x).2) (ufFind (ufFuel st) st x).2 y h1
  dsimp only
  have hXY : Conn g (ufFind (ufFuel st) st x).1
      (ufFind (ufFuel (ufFind (ufFuel st) st x).2)
        (ufFind (ufFuel st) st x).2 y).1 :=
    Relation.ReflTransGen.trans (Conn_symm c1)
      (Relation.ReflTransGen.trans hxy c2)
  split_ifs with hroots hr1 hr2
  · exact h2
  · intro pr hpr
    rcases mem_assocSet hpr with h | h
    · exact h2 pr h
    · rw [h]
      exact hXY
  · intro pr hpr
    rcases mem_assocSet hpr with h | h
    · exact h2 pr h
    · rw [h]
      exact Conn_symm hXY
  · intro pr hpr
    rcases mem_assocSet hpr with h | h
    · exact h2 pr h
    · rw [h]
      exact Conn_symm hXY

/-- Every equivalence class built by the union-find holds pairwise
detail-connected columns. -/
theorem buildEC_conn (g : Graph) :
    ∀ ec ∈ buildEquivalenceClasses g, ∀ tc1 ∈ ec, ∀ tc2 ∈ ec,
      Conn g tc1 tc2 := by
  unfold buildEquivalenceClasses
  have hst : UFInv g ((allDetails g).foldl (fun st d =>
      ufUnion st ⟨d.t1, d.t1_col⟩ ⟨d.t2, d.t2_col⟩) ⟨[], []⟩) := by
    refine foldl_preserve (UFInv g) _ (allDetails g) ⟨[], []⟩ ?_ ?_
    · intro pr hpr
      cases hpr
    · intro st d hstI hd
      exact ufUnion_sound hstI
        (Relation.ReflTransGen.single ⟨d, hd, Or.inl ⟨rfl, rfl⟩⟩)
  have hgr : ∀ e ∈ ufGroups ((allDetails g).foldl (fun st d =>
      ufUnion st ⟨d.t1, d.t1_col⟩ ⟨d.t2, d.t2_col⟩) ⟨[], []⟩),
      ∀ tc ∈ e.2, Conn g tc e.1 := by
    unfold ufGroups
    generalize hst0 : (allDetails g).foldl (fun st d =>
      ufUnion st ⟨d.t1, d.t1_col⟩ ⟨d.t2, d.t2_col⟩) ⟨[], []⟩ = st0
    rw [hst0] at hst
    have hfold := foldl_preserve
      (fun (acc : List (QCol × List QCol) × UFState) =>
        UFInv g acc.2 ∧ ∀ e ∈ acc.1, ∀ tc ∈ e.2, Conn g tc e.1)
      (fun acc tc =>
        let fr := ufFind (ufFuel acc.2) acc.2 tc
        let groups :=
          match assocFind? acc.1 fr.1 with
          | some grp => assocSet acc.1 fr.1 (grp ++ [tc])
          | none => acc.1 ++ [(fr.1, [tc])]
        (groups, fr.2))
      (st0.parent.map Prod.fst) ([], st0) ⟨hst, by intro e he; cases he⟩ ?_
    · exact hfold.2
    · intro acc tc hacc htc
      obtain ⟨hinv, hgroups⟩ := hacc
      obtain ⟨hinv2, hconn2⟩ := ufFind_sound (ufFuel acc.2) acc.2 tc hinv
      dsimp only
      refine ⟨hinv2, ?_⟩
      intro e he tc2 htc2
      cases hfg : assocFind? acc.1 (ufFind (ufFuel acc.2) acc.2 tc).1 with
      | some grp =>
        rw [hfg] at he
        rcases mem_assocSet he with h | h
        · exact hgroups e h tc2 htc2
        · rw [h] at htc2 ⊢
          simp only at htc2 ⊢
          rcases List.mem_append.mp htc2 with h2 | h2
          · exact hgroups _ (assocFind?_mem hfg) tc2 h2
          · simp only [List.mem_singleton] at h2
            rw [h2]
            exact hconn2
      | none =>
        rw [hfg] at he
        rcases List.mem_append.mp he with h | h
        · exact hgroups e h tc2 htc2
        · simp only [List.mem_singleton] at h
          rw [h] at htc2 ⊢
          simp only [List.mem_singleton] at htc2
          rw [htc2]
          exact hconn2
  intro ec hec tc1 h1 tc2 h2
  obtain ⟨e, he, rfl⟩ := List.mem_map.mp hec
  exact Relation.ReflTransGen.trans (hgr e he tc1 h1)
    (Conn_symm (hgr e he tc2 h2))

theorem areInSameEC_conn {g : Graph} {t1 t2 : String}
    (h : areInSameEC (buildEquivalenceClasses g) t1 t2 = true) :
    ∃ p q : QCol, p.rel = t1 ∧ q.rel = t2 ∧ Conn g p q := by
  unfold areInSameEC at h
  obtain ⟨ec, hec, hcond⟩ := List.any_eq_true.mp h
  simp only [Bool.and_eq_true] at hcond
  obtain ⟨p, hp, hp2⟩ := List.any_eq_true.mp hcond.1
  obtain ⟨q, hq, hq2⟩ := List.any_eq_true.mp hcond.2
  simp only [decide_eq_true_eq] at hp2 hq2
  exact ⟨p, q, hp2, hq2, buildEC_conn g ec hec p hp q hq⟩

theorem areInSameEC_symm (ecs : List (List QCol)) (t1 t2 : String) :
    areInSameEC ecs t1 t2 = areInSameEC ecs t2 t1 := by
  unfold areInSameEC
  induction ecs with
  | nil => rfl
  | cons ec rest ih =>
    rw [List.any_cons, List.any_cons, ih, Bool.and_comm]

/-- One step of the subset connectivity relation used by is_connected. -/
def ecStep (ecs : List (List QCol)) (S : List String) (x y : String) : Prop :=
  x ∈ S ∧ y ∈ S ∧ areInSameEC ecs x y = true

theorem bfsLoop_props (ecs : List (List QCol)) (S : List String)
    (hndS : S.Nodup) (start : String) :
    ∀ (fuel : Nat) (queue visited : List String),
      (∀ v ∈ visited, Relation.ReflTransGen (ecStep ecs S) start v) →
      (∀ v ∈ queue, v ∈ visited) →
      (∀ v ∈ visited, v ∈ S) → visited.Nodup →
      (∀ v ∈ bfsLoop ecs S fuel queue visited,
          Relation.ReflTransGen (ecStep ecs S) start v) ∧
        (bfsLoop ecs S fuel queue visited).Nodup ∧
        (∀ v ∈ bfsLoop ecs S fuel queue visited, v ∈ S) := by
  intro fuel
  induction fuel with
  | zero =>
    intro queue visited h1 h2 h3 h4
    exact ⟨h1, h4, h3⟩
  | succ m ih =>
    intro queue visited h1 h2 h3 h4
    cases queue with
    | nil => exact ⟨h1, h4, h3⟩
    | cons cur rest =>
      rw [bfsLoop]
      have hnews : ∀ v ∈ S.filter
          (fun o => ¬ o ∈ visited ∧ areInSameEC ecs cur o = true),
          v ∈ S ∧ ¬ v ∈ visited ∧ areInSameEC ecs cur v = true := by
        intro v hv
        have h5 := List.mem_filter.mp hv
        refine ⟨h5.1, ?_⟩
        simpa using h5.2
      apply ih
      · intro v hv
        rcases List.mem_append.mp hv with hv | hv
        · exact h1 v hv
        · obtain ⟨hvS, _, hvEC⟩ := hnews v hv
          exact Relation.ReflTransGen.tail (h1 cur (h2 cur (List.mem_cons_self _ _)))
            ⟨h3 cur (h2 cur (List.mem_cons_self _ _)), hvS, hvEC⟩
      · intro v hv
        rcases List.mem_append.mp hv with hv | hv
        · exact List.mem_append_left _ (h2 v (List.mem_cons_of_mem _ hv))
        · exact List.mem_append_right _ hv
      · intro v hv
        rcases List.mem_append.mp hv with hv | hv
        · exact h3 v hv
        · exact (hnews v hv).1
      · refine List.Nodup.append h4 ((List.filter_sublist _).nodup hndS) ?_
        intro a haV haN
        exact (hnews a haN).2.1 haV

/-- is_connected makes every subset member reachable from the scan's
start element via shared-class steps inside the subset. -/
theorem isConnected_reach {ecs : List (List QCol)} {s0 : String}
    {Srest : List String} (hndS : (s0 :: Srest).Nodup)
    (hlen : 1 < (s0 :: Srest).length)
    (hconn : isConnected ecs (s0 :: Srest) = true) :
    ∀ x ∈ s0 :: Srest,
      Relation.ReflTransGen (ecStep ecs (s0 :: Srest)) s0 x := by
  unfold isConnected at hconn
  rw [if_neg (by omega)] at hconn
  simp only [decide_eq_true_eq] at hconn
  obtain ⟨hreach, hnd2, hsub⟩ := bfsLoop_props ecs (s0 :: Srest) hndS s0
    (s0 :: Srest).length [s0] [s0]
    (by
      intro v hv
      simp only [List.mem_singleton] at hv
      subst hv
      exact Relation.ReflTransGen.refl)
    (fun v hv => hv)
    (by
      intro v hv
      simp only [List.mem_singleton] at hv
      rw [hv]
      exact List.mem_cons_self _ _)
    (List.nodup_singleton s0)
  intro x hx
  apply hreach
  have hfs : (bfsLoop ecs (s0 :: Srest) (s0 :: Srest).length
      [s0] [s0]).toFinset = (s0 :: Srest).toFinset := by
    apply Finset.eq_of_subset_of_card_le
    · intro a haF
      exact List.mem_toFinset.mpr (hsub a (List.mem_toFinset.mp haF))
    · rw [List.toFinset_card_of_nodup hndS, List.toFinset_card_of_nodup hnd2,
        hconn]
  have hx2 : x ∈ (bfsLoop ecs (s0 :: Srest) (s0 :: Srest).length
      [s0] [s0]).toFinset := by
    rw [hfs]
    exact List.mem_toFinset.mpr hx
  exact List.mem_toFinset.mp hx2

/-- A shared-class walk from one side of a partition to the other crosses
the cut at some shared-class pair. -/
theorem reach_crossing {ecs : List (List QCol)} {S X Y : List String}
    (hpart : ∀ x, x ∈ S → (x ∈ X ∨ x ∈ Y))
    (hdisj : ∀ x, ¬ (x ∈ X ∧ x ∈ Y)) :
    ∀ u w, u ∈ X → w ∈ Y →
      Relation.ReflTransGen (ecStep ecs S) u w →
      ∃ a ∈ X, ∃ t ∈ Y, areInSameEC ecs a t = true := by
  intro u w hu hw hreach
  revert hu
  induction hreach using Relation.ReflTransGen.head_induction_on with
  | refl =>
    intro hu
    exact absurd ⟨hu, hw⟩ (hdisj w)
  | head hstep _ ih =>
    rename_i a c _
    intro hu
    by_cases hcY : c ∈ Y
    · exact ⟨a, hu, c, hcY, hstep.2.2⟩
    · have hcX : c ∈ X := by
        rcases hpart c hstep.2.1 with h | h
        · exact h
        · exact absurd h hcY
      exact ih hcX

theorem conn_path {g : Graph} {p q : QCol} (h : Conn g p q) :
    ∃ n, ColPath g n p q := by
  induction h with
  | refl => exact ⟨0, ColPath.refl p⟩
  | tail _ hstep ih =>
    obtain ⟨n, hp⟩ := ih
    exact ⟨n + 1, ColPath.step hp hstep⟩

theorem findJoinPredicates_ne_nil {g : Graph} {a t : String}
    {ds : List JoinDetail} {d : JoinDetail}
    (hlk : lookupEdge g (edgeKey a t) = some ds) (hd : d ∈ ds) :
    findJoinPredicates g [a] [t] ≠ [] := by
  intro hnil
  unfold findJoinPredicates at hnil
  simp only [List.foldl_cons, List.foldl_nil, hlk] at hnil
  have h2 := congrArg List.length hnil
  rw [List.length_insertionSort] at h2
  simp only [List.nil_append, List.length_map, List.length_nil] at h2
  rw [List.length_eq_zero] at h2
  rw [h2] at hd
  cases hd

/-- C6: on a well-formed join graph at the closure's fixed point (the
state the completed build phase reaches whenever the closure converges
within its iteration cap), every step of the renderer's left-deep
construction over a connected subset finds a next relation to attach:
the branch that gives up because no next table was found is unreachable
for any partition of the subset into attached and remaining parts. -/
theorem c6_renderer_finds_next (g : Graph) (hwf : WfGraph g)
    (hcl : ClosedGraph g) (ord : List String → List String)
    (hord : ∀ (l : List String) (x : String), x ∈ ord l ↔ x ∈ l)
    (S added remaining : List String) (hndS : S.Nodup)
    (hpart : ∀ x, x ∈ S ↔ (x ∈ added ∨ x ∈ remaining))
    (hdisj : ∀ x, ¬ (x ∈ added ∧ x ∈ remaining))
    (ha : added ≠ []) (hr : remaining ≠ [])
    (hconn : isConnected (buildEquivalenceClasses g) S = true) :
    findNextTableOrd g ord added remaining ≠ none := by
  obtain ⟨a0, ha0⟩ := List.exists_mem_of_ne_nil added ha
  obtain ⟨t0, ht0⟩ := List.exists_mem_of_ne_nil remaining hr
  have ha0S : a0 ∈ S := (hpart a0).mpr (Or.inl ha0)
  have ht0S : t0 ∈ S := (hpart t0).mpr (Or.inr ht0)
  have hat0 : a0 ≠ t0 := fun h => hdisj a0 ⟨ha0, h ▸ ht0⟩
  rcases hS : S with _ | ⟨s0, Srest⟩
  · rw [hS] at ha0S
    cases ha0S
  rw [hS] at ha0S ht0S hndS hconn
  have hpart2 : ∀ x, x ∈ s0 :: Srest ↔ (x ∈ added ∨ x ∈ remaining) := by
    intro x
    rw [← hS]
    exact hpart x
  have hlen : 1 < (s0 :: Srest).length := by
    rcases Srest with _ | ⟨x1, xrest⟩
    · simp only [List.mem_singleton] at ha0S ht0S
      exact absurd (ha0S.trans ht0S.symm) hat0
    · simp
  have hreach := isConnected_reach hndS hlen hconn
  have hcross : ∃ a ∈ added, ∃ t ∈ remaining,
      areInSameEC (buildEquivalenceClasses g) a t = true := by
    rcases (hpart2 s0).mp (List.mem_cons_self _ _) with hs0 | hs0
    · exact reach_crossing (fun x hx => (hpart2 x).mp hx) hdisj s0 t0 hs0 ht0
        (hreach t0 ht0S)
    · have hflip := reach_crossing (X := remaining) (Y := added)
        (fun x hx => ((hpart2 x).mp hx).symm)
        (fun x ⟨h1, h2⟩ => hdisj x ⟨h2, h1⟩) s0 a0 hs0 ha0
        (hreach a0 ha0S)
      obtain ⟨t, htR, a, haA, hsame⟩ := hflip
      exact ⟨a, haA, t, htR, by rw [areInSameEC_symm]; exact hsame⟩
  obtain ⟨a, haA, t, htR, hsame⟩ := hcross
  obtain ⟨p, q, hpa, hqt, hconn2⟩ := areInSameEC_conn hsame
  have hanet : a ≠ t := fun h => hdisj a ⟨haA, h ▸ htR⟩
  have hrelpq : p.rel ≠ q.rel := by
    rw [hpa, hqt]
    exact hanet
  obtain ⟨n, hpath⟩ := conn_path hconn2
  obtain ⟨ds, hlk, d, hd⟩ := path_edge hwf hcl n q p hpath hrelpq
  rw [hpa, hqt] at hlk
  intro hnone
  unfold findNextTableOrd at hnone
  dsimp only at hnone
  cases hfo : List.findSome? (fun t2 =>
      List.findSome? (fun a2 =>
        Option.map (fun p2 => NextTable.mk t2 (some p2))
          (List.find? (fun p2 => p2.is_original)
            (findJoinPredicates g [a2] [t2]))) (ord added))
      (sortStrings remaining) with
  | some nt =>
    rw [hfo] at hnone
    cases hnone
  | none =>
    rw [hfo] at hnone
    have htmem : t ∈ sortStrings remaining :=
      ((List.perm_insertionSort strLERel remaining).mem_iff).mpr htR
    have hinner := List.findSome?_eq_none.mp hnone t htmem
    have hamem : a ∈ ord added := (hord added a).mpr haA
    have hval := List.findSome?_eq_none.mp hinner a hamem
    cases hfj : findJoinPredicates g [a] [t] with
    | nil => exact findJoinPredicates_ne_nil hlk hd hfj
    | cons p2 ps =>
      rw [hfj] at hval
      cases hval

theorem c6_renderer_finds_next_witness :
    WfGraph exGraphChain ∧ ClosedGraph exGraphChain ∧
      isConnected (buildEquivalenceClasses exGraphChain)
        ["A", "B", "C"] = true ∧
      findNextTableOrd exGraphChain id ["A"] ["B", "C"] ≠ none :=
  ⟨by decide, by decide, by decide,
    c6_renderer_finds_next exGraphChain (by decide) (by decide) id
      (fun _ _ => Iff.rfl) ["A", "B", "C"] ["A"] ["B", "C"] (by decide)
      (by
        intro x
        simp only [List.mem_cons, List.mem_singleton, List.not_mem_nil,
          or_false])
      (by
        intro x hx
        simp only [List.mem_cons, List.mem_singleton, List.not_mem_nil,
          or_false] at hx
        obtain ⟨h1, h2⟩ := hx
        subst h1
        rcases h2 with h | h <;> exact absurd h (by decide))
      (by decide) (by decide) (by decide)⟩

end JSE
